import Mathlib

/-!
Shallow embedding of the `rosbag-rx` TypeScript sources and proofs about them.

Conventions used throughout:
* JS `Buffer` values are modelled as `List Nat` of byte values.
* JS numbers that always hold integral values are modelled as `Int`
  (or `Nat` where the source can only produce non-negative values);
  fractional second offsets are modelled as `ℚ` (the values exercised by
  the spec are exactly representable as binary doubles, so exact rational
  arithmetic coincides with the source's double arithmetic on them).
  Rational arithmetic is routed through `Rat.divInt`-based helpers so
  that every definition evaluates by kernel reduction.
* A JS call that can return a value, return `undefined`, or throw is
  modelled with the three-valued result type `JSRes`.
-/

set_option maxRecDepth 40000

namespace RosbagRx

/-- A byte buffer: JS `Buffer` modelled as a list of byte values. -/
abbrev Bytes := List Nat

/-- Result of a JS computation: a value, `undefined`, or a thrown exception. -/
inductive JSRes (α : Type) where
  | ok : α → JSRes α
  | undef : JSRes α
  | thrown : JSRes α
deriving DecidableEq

/-! ### Exact rational helpers (kernel-reducible stand-ins for `ℚ` field ops) -/

/-- `Math.floor` on an exact rational (denominators are positive, so Euclidean
division of the numerator by the denominator is the floor). -/
def qFloor (q : ℚ) : Int := q.num / (q.den : Int)

/-- Truncation toward zero, the rounding used by the JS `%` operator. -/
def qTrunc (q : ℚ) : Int := Int.tdiv q.num (q.den : Int)

/-- Exact rational multiplication (equal to `a * b`). -/
def qMul (a b : ℚ) : ℚ := Rat.divInt (a.num * b.num) ((a.den : Int) * b.den)

/-- Exact rational subtraction (equal to `a - b`). -/
def qSub (a b : ℚ) : ℚ :=
  Rat.divInt (a.num * b.den - b.num * a.den) ((a.den : Int) * b.den)

/-- Exact rational addition (equal to `a + b`). -/
def qAdd (a b : ℚ) : ℚ :=
  Rat.divInt (a.num * b.den + b.num * a.den) ((a.den : Int) * b.den)

/-- Exact division of a rational by an integer (equal to `a / c` for `c ≠ 0`). -/
def qDivInt (a : ℚ) (c : Int) : ℚ := Rat.divInt a.num ((a.den : Int) * c)

theorem qFloor_eq_floor (q : ℚ) : qFloor q = ⌊q⌋ := Rat.floor_def.symm

/-! ## Time primitives (src/utils/timeUtil.ts) -/

/-- `ITime` from `models/general.models.ts`.  Fields are JS numbers holding
integral values; `addSecToTime` can produce negative components, so both
fields are modelled as `Int`. -/
structure Time where
  sec : Int
  nsec : Int
deriving DecidableEq

/-- `compareTime` (src/utils/timeUtil.ts): `const secDiff = a.sec - b.sec;
return secDiff || a.nsec - b.nsec;` (JS `||` falls through on `0`). -/
def compareTime (a b : Time) : Int :=
  let secDiff := a.sec - b.sec
  if secDiff = 0 then a.nsec - b.nsec else secDiff

/-- `isLessThan` (src/utils/timeUtil.ts). -/
def isLessThan (a b : Time) : Bool := compareTime a b < 0

/-- JS `s % 1` on numbers: remainder with the sign of the dividend
(truncated division), exact on the rationals exercised here. -/
def jsModOne (s : ℚ) : ℚ := qSub s (qTrunc s : Int)

/-- `addSecToTime` (src/utils/timeUtil.ts):
`const totalNano = time.nsec + Math.floor((sec % 1) * 1e9);`
`const carry = Math.floor(totalNano / 1e9);`
result `{ sec: time.sec + Math.floor(sec) + carry, nsec: totalNano % 1e9 }`.
JS `%` on integral values is the truncated remainder (`Int.tmod`). -/
def addSecToTime (t : Time) (s : ℚ) : Time :=
  let totalNano : Int := t.nsec + qFloor (qMul (jsModOne s) 1000000000)
  let carry : Int := qFloor (qDivInt (totalNano : ℚ) 1000000000)
  { sec := t.sec + qFloor s + carry
    nsec := totalNano.tmod 1000000000 }

/-- The `add(t, s)` operation as the spec and claim C1 word it:
`frac_ns = floor((s mod 1) * 1e9)` with *Euclidean* modulus (so
`s mod 1 = s - floor(s)`), `carry = floor(total_ns / 1e9)` (Euclidean),
result `{sec: t.sec + floor(s) + carry, nsec: total_ns mod 1e9}` with the
Euclidean modulus keeping `nsec` in `[0, 1e9)`. -/
def addSecToTimeSpec (t : Time) (s : ℚ) : Time :=
  let fracNs : Int := qFloor (qMul (qSub s (qFloor s : Int)) 1000000000)
  let totalNs : Int := t.nsec + fracNs
  let carry : Int := Int.fdiv totalNs 1000000000
  { sec := t.sec + qFloor s + carry
    nsec := totalNs.emod 1000000000 }

/-! ## Byte-buffer primitives (JS `Buffer` / `DataView` operations) -/

/-- JS TypedArray index resolution as used by `Buffer.subarray`: a negative
index counts from the end; the result is clamped to `[0, length]`. -/
def jsIdx (len : Nat) (i : Int) : Nat :=
  if i < 0 then ((len : Int) + i).toNat else min i.toNat len

/-- `Buffer.subarray(s, e)`. -/
def jsSub (b : Bytes) (s e : Int) : Bytes :=
  (b.take (jsIdx b.length e)).drop (jsIdx b.length s)

/-- `Buffer.subarray(s)` (to the end of the buffer). -/
def jsSubFrom (b : Bytes) (s : Int) : Bytes := b.drop (jsIdx b.length s)

/-- `Buffer.readUInt32LE(offset)`: little-endian, bounds-checked
(`none` models the thrown RangeError). -/
def readUInt32LE (b : Bytes) (off : Int) : Option Nat :=
  if off < 0 then none
  else
    match b.drop off.toNat with
    | b0 :: b1 :: b2 :: b3 :: _ => some (b0 + 256 * b1 + 65536 * b2 + 16777216 * b3)
    | _ => none

/-- Reinterpret an unsigned 32-bit value as signed (two's complement). -/
def toSigned32 (n : Nat) : Int :=
  if n < 2147483648 then (n : Int) else (n : Int) - 4294967296

/-- `Buffer.readInt32LE(offset)`: signed, bounds-checked. -/
def readInt32LE (b : Bytes) (off : Int) : Option Int :=
  (readUInt32LE b off).map toSigned32

/-- `Buffer.toString()` restricted to the ASCII payloads every call site in the
source passes (field names, compression tags, type names, definitions). -/
def asciiToString (b : Bytes) : String := ⟨b.map Char.ofNat⟩

/-- ASCII bytes of a string, for building concrete wire-format inputs. -/
def asciiBytes (s : String) : Bytes := s.data.map Char.toNat

/-! ## Record framing (src/helper-functions.ts) -/

/-- `IRecordFields`: a JS object mapping field names to `Buffer` values,
modelled as an insertion-ordered association list keyed by the raw name
bytes (`Buffer.toString` is injective on the ASCII keys used throughout). -/
abbrev RecordFields := List (Bytes × Bytes)

/-- JS object property assignment `obj[k] = v`: an existing key keeps its
position and gets the new value; a new key is appended. -/
def rfInsert (fields : RecordFields) (k v : Bytes) : RecordFields :=
  if fields.any (fun p => p.1 = k) then
    fields.map (fun p => if p.1 = k then (k, v) else p)
  else fields ++ [(k, v)]

/-- JS property read `fields[name]`: `undefined` when the key is absent. -/
def rfGet (fields : RecordFields) (k : Bytes) : Option Bytes :=
  (fields.find? (fun p => p.1 = k)).map (fun p => p.2)

/-- `Buffer.indexOf(byte)`: index of the first occurrence, `none` for `-1`. -/
def findEqIdx (target : Nat) : Bytes → Option Nat
  | [] => none
  | b :: bs => if b = target then some 0 else (findEqIdx target bs).map (fun i => i + 1)

/-- The body of the `extractFields` while-loop (src/helper-functions.ts):
read a `u32` little-endian length (via the *signed* `readInt32LE` of the
source), slice that many bytes, split at the first `=` (byte 61);
`.undef` models `return undefined` when an entry has no `=`, `.thrown`
models the RangeError of an out-of-bounds length read.  The loop advances
`offset` by at least 4 whenever it recurses with a non-negative offset, so
`b.length` fuel always suffices (`extractFields` passes exactly that); the
fuel-exhaustion branch is unreachable. -/
def extractFieldsGo (b : Bytes) : Nat → Int → RecordFields → JSRes RecordFields
  | fuel, offset, acc =>
    if offset < (b.length : Int) then
      match fuel with
      | 0 => .thrown
      | fuel + 1 =>
        match readInt32LE b offset with
        | none => .thrown
        | some fieldLen =>
          let fieldData := jsSub b (offset + 4) (offset + 4 + fieldLen)
          match findEqIdx 61 fieldData with
          | none => .undef
          | some i =>
              extractFieldsGo b fuel (offset + 4 + fieldLen)
                (rfInsert acc (fieldData.take i) (fieldData.drop (i + 1)))
    else .ok acc

/-- `extractFields` (src/helper-functions.ts). -/
def extractFields (b : Bytes) : JSRes RecordFields :=
  extractFieldsGo b b.length 0 []

/-- `IRecordShallow` (models/general.models.ts). -/
structure RecordShallow where
  recordOffset : Int
  recordLength : Int
  recordDataOffset : Int
  recordHeaderFields : RecordFields
  recordDataBuffer : Bytes
deriving DecidableEq

/-- `shallowRecordRead` (src/helper-functions.ts): header length, header
fields, data length, data slice.  `.undef` models its
`if (!recordHeaderFields) return undefined`. -/
def shallowRecordRead (b : Bytes) (initialOffset : Int) : JSRes RecordShallow :=
  match readInt32LE b 0 with
  | none => .thrown
  | some recordHeaderLen =>
    match extractFields (jsSub b 4 (4 + recordHeaderLen)) with
    | .undef => .undef
    | .thrown => .thrown
    | .ok recordHeaderFields =>
      match readInt32LE b (recordHeaderLen + 4) with
      | none => .thrown
      | some recordDataLength =>
        let headerOffset := 4 + recordHeaderLen + 4
        let recordLength := recordDataLength + headerOffset
        .ok { recordOffset := initialOffset
              recordLength := recordLength
              recordDataOffset := initialOffset + headerOffset
              recordHeaderFields := recordHeaderFields
              recordDataBuffer := jsSub b headerOffset recordLength }

/-- The loop of `retrieveRecordsFromBuffer` (src/helper-functions.ts),
recursing on the remaining record count.  The source does not null-check
`shallowRecordRead`'s result before handing it to the parser and reading
`.recordLength` from it, so an `undefined` record dereferences as a
TypeError (`.thrown`); the parsers used with it dereference their argument
immediately as well. -/
def retrieveRecordsGo {α : Type} (b : Bytes) (startingOffset : Int)
    (recordParse : RecordShallow → JSRes α) :
    Nat → Int → List α → JSRes (List α)
  | 0, _, acc => .ok acc
  | n + 1, bufferOffset, acc =>
    match shallowRecordRead (jsSubFrom b bufferOffset) (startingOffset + bufferOffset) with
    | .undef => .thrown
    | .thrown => .thrown
    | .ok shallowData =>
      match recordParse shallowData with
      | .ok parsed =>
          retrieveRecordsGo b startingOffset recordParse n
            (bufferOffset + shallowData.recordLength) (acc ++ [parsed])
      | _ => .thrown

/-- `retrieveRecordsFromBuffer` (src/helper-functions.ts). -/
def retrieveRecordsFromBuffer {α : Type} (b : Bytes) (recordsCount : Nat)
    (startingOffset : Int) (recordParse : RecordShallow → JSRes α) : JSRes (List α) :=
  retrieveRecordsGo b startingOffset recordParse recordsCount 0 []

/-- `getField` (src/helper-functions.ts): a present field is a `Buffer`
object, always truthy (even when empty), so only absence yields
`undefined`. -/
def getField (fieldsRecord : RecordFields) (fieldName : Bytes) : Option String :=
  (rfGet fieldsRecord fieldName).map asciiToString

/-- `extractTime` (src/helper-functions.ts): `sec:u32 LE | nsec:u32 LE`. -/
def extractTime (b : Bytes) (offset : Int) : JSRes Time :=
  match readUInt32LE b offset, readUInt32LE b (offset + 4) with
  | some sec, some nsec => .ok ⟨sec, nsec⟩
  | _, _ => .thrown

/-- `recordDecompression` (src/helper-functions.ts): `none` returns the
input unchanged; `lz4` calls the external lz4js library, modelled as an
oracle parameter (`none` result models a throw inside the library); any
other tag indexes `undefined` and calling it throws. -/
def recordDecompression (lz4 : Bytes → Nat → Option Bytes)
    (tag : String) (b : Bytes) (size : Nat) : JSRes Bytes :=
  if tag = "none" then .ok b
  else if tag = "lz4" then
    match lz4 b size with
    | some r => .ok r
    | none => .thrown
  else .thrown

/-! ### Wire-format serializers (for stating round-trip properties and
building concrete inputs; these follow the byte layout of spec §4.1/§6) -/

/-- Little-endian 4-byte encoding of `n` (`u32 LE`). -/
def u32le (n : Nat) : Bytes := [n % 256, n / 256 % 256, n / 65536 % 256, n / 16777216 % 256]

/-- One `len:u32 LE | entry` wire entry. -/
def entryBytes (e : Bytes) : Bytes := u32le e.length ++ e

/-- Serialization of raw length-prefixed entries. -/
def serializeEntries (es : List Bytes) : Bytes := (es.map entryBytes).flatten

/-- Serialization of a fields map: each entry is `name '=' value`. -/
def serializeFields (fs : List (Bytes × Bytes)) : Bytes :=
  serializeEntries (fs.map (fun p => p.1 ++ 61 :: p.2))

/-- A whole record: `hlen:u32 | header[hlen] | dlen:u32 | data[dlen]` with the
header a serialized fields map. -/
def recordBytes (fields : List (Bytes × Bytes)) (data : Bytes) : Bytes :=
  entryBytes (serializeFields fields) ++ entryBytes data

/-! ## Schema compiler (`parseMsgDefinition`, src/helper-functions.ts)

String processing is carried out on `List Char` with handwritten splitters so
every definition evaluates by kernel reduction; they implement exactly the JS
`split` / `trim` / `startsWith` behaviour of the source on its inputs. -/

/-- JS `String.split` at every character satisfying `p` (so
`"a\nb".split` gives `["a","b"]`, a trailing separator yields a trailing
empty piece, and the empty string yields one empty piece). -/
def splitChars (p : Char → Bool) : List Char → List (List Char)
  | [] => [[]]
  | c :: cs =>
    if p c then [] :: splitChars p cs
    else
      match splitChars p cs with
      | r :: rs => (c :: r) :: rs
      | [] => [[c]]

/-- JS `String.trim()`: strip leading and trailing whitespace. -/
def trimChars (cs : List Char) : List Char :=
  ((cs.dropWhile Char.isWhitespace).reverse.dropWhile Char.isWhitespace).reverse

/-- JS `String.split(slash-s-plus)` on an already-trimmed line: the
whitespace-separated tokens. -/
def tokenizeChars (cs : List Char) : List (List Char) :=
  (splitChars Char.isWhitespace cs).filter (fun t => t ≠ [])

/-- The line filter of `parseMsgDefinition`: trim, then drop comment lines
(leading `#`), empty lines and `==`-separator lines. -/
def filterDefLines (lines : List (List Char)) : List (List Char) :=
  (lines.map trimChars).filter fun l =>
    !(l.head? = some '#' || l = [] || (l.take 2) = ['=', '='])

/-- Digits-to-number, the `parseInt(s, 10)` of the source on an all-digit
token. -/
def natOfDigits (ds : List Char) : Nat :=
  ds.foldl (fun n c => n * 10 + (c.toNat - 48)) 0

/-- ASCII lowercasing, the JS `toLowerCase()` on the ASCII type names the
source handles. -/
def toLowerChars (cs : List Char) : List Char := cs.map Char.toLower

/-- The `^(.+)\[(\d*)\]$` match of `parseMsgDefinition`: with the greedy
`(.+)`, the bracket matched is the last `[` of the token; the digits group
may be empty.  Returns `(key_type, is_array, array_length)` exactly as the
source assigns them (`array_length` set only when the digits group is
non-empty, JS string truthiness). -/
def matchArraySuffix (cs : List Char) : List Char × Bool × Option Nat :=
  match cs.getLast? with
  | some ']' =>
    let body := cs.dropLast
    let revDigits := body.reverse.takeWhile (fun c => c ≠ '[')
    match body.reverse.drop revDigits.length with
    | '[' :: preRev =>
      if preRev ≠ [] ∧ revDigits.all (fun c => c.isDigit) then
        (preRev.reverse, true,
          if revDigits = [] then none else some (natOfDigits revDigits.reverse))
      else (cs, false, none)
    | _ => (cs, false, none)
  | _ => (cs, false, none)

/-- `IMsgFormat` (models/chunk-info-manager.model.ts).  Recursive through
`nestedKeys`, hence an inductive type with explicit projections. -/
inductive MsgFormat where
  | mk (key : String) (keyType : String) (isArray : Bool)
      (nestedKeys : List MsgFormat) (constantValue : Option String)
      (arrayLength : Option Nat) : MsgFormat

def MsgFormat.key : MsgFormat → String
  | .mk k _ _ _ _ _ => k

def MsgFormat.keyType : MsgFormat → String
  | .mk _ t _ _ _ _ => t

def MsgFormat.isArray : MsgFormat → Bool
  | .mk _ _ a _ _ _ => a

def MsgFormat.nestedKeys : MsgFormat → List MsgFormat
  | .mk _ _ _ n _ _ => n

def MsgFormat.constantValue : MsgFormat → Option String
  | .mk _ _ _ _ c _ => c

def MsgFormat.arrayLength : MsgFormat → Option Nat
  | .mk _ _ _ _ _ l => l

/-- `IMsgSchema`: top-level fields plus the `MSGSTypes` map (a JS `Map`,
modelled as an insertion-ordered association list). -/
structure MsgSchema where
  topLevelKeys : List MsgFormat
  MSGSTypes : List (String × MsgFormat)

/-- JS `Map.prototype.set` semantics: an existing key keeps its position. -/
def mapSet {κ β : Type} [DecidableEq κ] (m : List (κ × β)) (k : κ) (v : β) : List (κ × β) :=
  if m.any (fun p => p.1 = k) then m.map (fun p => if p.1 = k then (k, v) else p)
  else m ++ [(k, v)]

/-- JS `Map.prototype.get`. -/
def mapGet {κ β : Type} [DecidableEq κ] (m : List (κ × β)) (k : κ) : Option β :=
  (m.find? (fun p => p.1 = k)).map (fun p => p.2)

/-- The per-line token analysis of `parseMsgDefinition`: destructure
`[keyType, key, ...rest]`, recover a constant from `rest = ["=", v]` or from
a `=` inside the key token, match the array suffix, and reduce a slashed
type to its lowercased last segment.  `none` models the TypeError the
source throws when a line has a single token (`key` is `undefined`). -/
def lineFormatOf (line : List Char) : Option MsgFormat :=
  match tokenizeChars line with
  | [] => none
  | keyTypeTok :: keyRest =>
    match keyRest with
    | [] => none
    | keyTok :: rest =>
      let cvFromRest : Option (List Char) :=
        if rest.head? = some ['='] then rest[1]? else none
      let keyAndCv : List Char × Option (List Char) :=
        if keyTok.contains '=' then
          let parts := splitChars (fun c => c = '=') keyTok
          (parts.headD [], parts[1]?)
        else (keyTok, cvFromRest)
      let arrayInfo := matchArraySuffix keyTypeTok
      let segs := splitChars (fun c => c = '/') arrayInfo.1
      let keyType := toLowerChars (segs.getLastD [])
      some (.mk (String.mk keyAndCv.1) (String.mk keyType) arrayInfo.2.1 []
        (keyAndCv.2.map String.mk) arrayInfo.2.2)

/-- Append a line format to the pending nested type's `nestedKeys`. -/
def MsgFormat.pushNested (cur lf : MsgFormat) : MsgFormat :=
  match cur with
  | .mk k t a n c l => .mk k t a (n ++ [lf]) c l

/-- Finalizing a pending `MSG:` block: its own `keyType` becomes the
lowercased last `/`-segment of its `key`, and it is inserted into
`MSGSTypes` under that name. -/
def finalizeMSG (cur : MsgFormat) (msgs : List (String × MsgFormat)) :
    List (String × MsgFormat) :=
  let segs := splitChars (fun c => c = '/') cur.key.data
  let name := String.mk (toLowerChars (segs.getLastD []))
  let cur' : MsgFormat :=
    match cur with
    | .mk k _ a n c l => .mk k name a n c l
  mapSet msgs name cur'

/-- The scan loop of `parseMsgDefinition` over the filtered lines, carrying
the pending nested type (`currentMSG`), the top-level fields and the
`MSGSTypes` map.  A pending type is finalized when a new `MSG:` line starts
or when the last retained line lands inside it (the source's
`i === filteredLines.length - 1` check). -/
def parseMsgDefGo : List (List Char) → MsgFormat → List MsgFormat →
    List (String × MsgFormat) → Option (List MsgFormat × List (String × MsgFormat))
  | [], _, top, msgs => some (top, msgs)
  | line :: restLines, currentMSG, top, msgs =>
    match lineFormatOf line with
    | none => none
    | some lf =>
      if lf.keyType = "msg:" then
        let msgs' := if currentMSG.key ≠ "" then finalizeMSG currentMSG msgs else msgs
        parseMsgDefGo restLines lf top msgs'
      else if currentMSG.key ≠ "" then
        let cur' := currentMSG.pushNested lf
        if restLines = [] then some (top, finalizeMSG cur' msgs)
        else parseMsgDefGo restLines cur' top msgs
      else parseMsgDefGo restLines currentMSG (top ++ [lf]) msgs

/-- The initial `currentMSG` accumulator of the source. -/
def emptyMSG : MsgFormat := .mk "" "" false [] none none

/-- `parseMsgDefinition` (src/helper-functions.ts). -/
def parseMsgDefinition (msgDef : String) : Option MsgSchema :=
  let filtered := filterDefLines (splitChars (fun c => c = '\n') msgDef.data)
  (parseMsgDefGo filtered emptyMSG [] []).map fun p => ⟨p.1, p.2⟩

/-! ## Message decoder (src/message-reader.ts) -/

/-- A decoded field value.  Distinct constructors for the distinct JS value
shapes the readers return; `floatBits` carries the raw little-endian bits of
a `float32`/`float64` read (their IEEE interpretation is irrelevant to every
property below and is not modelled); `undef` is the `undefined` returned by
the `json` no-op reader. -/
inductive Value where
  | str : String → Value
  | int : Int → Value
  | bool : Bool → Value
  | time : Time → Value
  | floatBits : Nat → Value
  | arr : List Value → Value
  | obj : List (String × Value) → Value
  | undef : Value

/-- `StdTypeReader`'s cursor: the message buffer and the current offset (a JS
number; the `string` reader can push it negative via a negative length). -/
structure ReaderState where
  buffer : Bytes
  offset : Int
deriving DecidableEq

/-- Read one byte at an absolute position, bounds-checked. -/
def byteAtI (b : Bytes) (i : Int) : Option Nat :=
  if 0 ≤ i ∧ i < (b.length : Int) then some (b.getD i.toNat 0) else none

/-- `DataView.getUint16(o, true)`, bounds-checked. -/
def readUInt16LE (b : Bytes) (off : Int) : Option Nat :=
  if off < 0 then none
  else
    match b.drop off.toNat with
    | b0 :: b1 :: _ => some (b0 + 256 * b1)
    | _ => none

/-- Reinterpret unsigned 8-bit as signed. -/
def toSigned8 (n : Nat) : Int := if n < 128 then (n : Int) else (n : Int) - 256

/-- Reinterpret unsigned 16-bit as signed. -/
def toSigned16 (n : Nat) : Int := if n < 32768 then (n : Int) else (n : Int) - 65536

/-- `Buffer.toString("ascii", start, end)`: `start`/`end` clamped to
`[0, length]` (no negative-from-end here), each byte masked to 7 bits. -/
def bufToStringAscii (b : Bytes) (s e : Int) : String :=
  let clamp : Int → Nat := fun i => min (i.toNat) b.length
  ⟨((b.take (clamp e)).drop (clamp s)).map (fun n => Char.ofNat (n % 128))⟩

/-- How many halvings bring `n` under `2^53` (the excess bits beyond a double
significand).  Plain recursion with a fuel of 64, enough for every value a
64-bit field read can produce. -/
def excessBits : Nat → Nat → Nat
  | 0, _ => 0
  | f + 1, n => if n < 9007199254740992 then 0 else excessBits f (n / 2) + 1

/-- Modelled from the spec: the external `int53` helper used by the
`int64`/`uint64` readers is absent from `src/`; spec §9 describes it as
narrowing 64-bit integers to doubles, "losing precision above 2⁵³".  This is
the exact integer semantics of that narrowing: values below `2^53` are kept,
larger ones are rounded to the nearest representable double
(round-half-to-even at the 53-bit significand). -/
def roundToDouble (n : Nat) : Nat :=
  if n < 9007199254740992 then n
  else
    let k := excessBits 64 n
    let q := n / 2 ^ k
    let r := n % 2 ^ k
    let half := 2 ^ (k - 1)
    if r < half then q * 2 ^ k
    else if half < r then (q + 1) * 2 ^ k
    else if q % 2 = 0 then q * 2 ^ k else (q + 1) * 2 ^ k

/-- Modelled from the spec: signed variant of the double narrowing. -/
def roundToDoubleInt (v : Int) : Int :=
  if 0 ≤ v then (roundToDouble v.toNat : Int) else -(roundToDouble (-v).toNat : Int)

/-- Modelled from the spec: `int53.readUInt64LE` — low `u32`, high `u32`,
combined as `hi * 2^32 + lo` in double arithmetic (`hi * 2^32` is exact, the
addition rounds once). -/
def int53ReadUInt64LE (b : Bytes) (off : Int) : Option Nat :=
  match readUInt32LE b off, readUInt32LE b (off + 4) with
  | some lo, some hi => some (roundToDouble (hi * 4294967296 + lo))
  | _, _ => none

/-- Modelled from the spec: `int53.readInt64LE` — as above with a signed high
word. -/
def int53ReadInt64LE (b : Bytes) (off : Int) : Option Int :=
  match readUInt32LE b off, readUInt32LE b (off + 4) with
  | some lo, some hi => some (roundToDoubleInt (toSigned32 hi * 4294967296 + lo))
  | _, _ => none

/-- The exact unsigned 64-bit little-endian value of 8 bytes, the reference
decoding claim C9 demands. -/
def exactUInt64LE (b : Bytes) (off : Int) : Option Nat :=
  match readUInt32LE b off, readUInt32LE b (off + 4) with
  | some lo, some hi => some (hi * 4294967296 + lo)
  | _, _ => none

/-- Whether `parsingMethods[t]` exists on `StdTypeReader`. -/
def isStdType (t : String) : Bool :=
  t = "string" || t = "bool" || t = "int8" || t = "uint8" || t = "int16" ||
  t = "uint16" || t = "int32" || t = "uint32" || t = "float32" ||
  t = "float64" || t = "int64" || t = "uint64" || t = "time" ||
  t = "duration" || t = "json" || t = "byte" || t = "char"

/-- The body of the matching `parsingMethods` entry of `StdTypeReader`
(src/message-reader.ts): reads at the cursor and advances it.  `none` models
a thrown RangeError.  Bounds are those of the message buffer (the source's
`DataView` is built without an explicit length, so in principle it reaches to
the end of the chunk's backing buffer; no property below depends on reads
beyond the message payload). -/
def stdReadRun (t : String) (rs : ReaderState) : Option (Value × ReaderState) :=
  if t = "string" then
    match readInt32LE rs.buffer rs.offset with
    | none => none
    | some strLen =>
      let o := rs.offset + 4
      some (.str (bufToStringAscii rs.buffer o (o + strLen)),
        { rs with offset := o + strLen })
  else if t = "bool" then
    (byteAtI rs.buffer rs.offset).map fun v =>
      (.bool (v ≠ 0), { rs with offset := rs.offset + 1 })
  else if t = "int8" || t = "byte" then
    (byteAtI rs.buffer rs.offset).map fun v =>
      (.int (toSigned8 v), { rs with offset := rs.offset + 1 })
  else if t = "uint8" || t = "char" then
    (byteAtI rs.buffer rs.offset).map fun v =>
      (.int v, { rs with offset := rs.offset + 1 })
  else if t = "int16" then
    (readUInt16LE rs.buffer rs.offset).map fun v =>
      (.int (toSigned16 v), { rs with offset := rs.offset + 2 })
  else if t = "uint16" then
    (readUInt16LE rs.buffer rs.offset).map fun v =>
      (.int v, { rs with offset := rs.offset + 2 })
  else if t = "int32" then
    (readUInt32LE rs.buffer rs.offset).map fun v =>
      (.int (toSigned32 v), { rs with offset := rs.offset + 4 })
  else if t = "uint32" then
    (readUInt32LE rs.buffer rs.offset).map fun v =>
      (.int v, { rs with offset := rs.offset + 4 })
  else if t = "float32" then
    (readUInt32LE rs.buffer rs.offset).map fun v =>
      (.floatBits v, { rs with offset := rs.offset + 4 })
  else if t = "float64" then
    match readUInt32LE rs.buffer rs.offset, readUInt32LE rs.buffer (rs.offset + 4) with
    | some lo, some hi => some (.floatBits (hi * 4294967296 + lo), { rs with offset := rs.offset + 8 })
    | _, _ => none
  else if t = "int64" then
    (int53ReadInt64LE rs.buffer rs.offset).map fun v =>
      (.int v, { rs with offset := rs.offset + 8 })
  else if t = "uint64" then
    (int53ReadUInt64LE rs.buffer rs.offset).map fun v =>
      (.int v, { rs with offset := rs.offset + 8 })
  else if t = "time" || t = "duration" then
    match extractTime rs.buffer rs.offset with
    | .ok tm => some (.time tm, { rs with offset := rs.offset + 8 })
    | _ => none
  else if t = "json" then some (.undef, rs)
  else none

/-- JS truthiness of an optional string (`undefined` and `""` are falsy). -/
def jsTruthyStr (o : Option String) : Bool :=
  match o with
  | some s => s ≠ ""
  | none => false

/-- `MessageReaders`' instance state: the memoized parser closures (each
closure is determined by the `IMsgFormat` it captured), the `_schemas`
registration map, and the shared `this.result` accumulator that every
compiled parser resets and fills (the source reuses one instance-level
object, so a nested parse clobbers its caller's accumulator — modelled
as-is). -/
structure MRState where
  msgTypesParsers : List (String × MsgFormat)
  schemas : List (String × Bool)
  result : List (String × Value)

/-- The mutually recursive work items of the decoder: `field` is
`parseField(reader, f)`; `run` is a compiled parser closure applied to the
reader; `fieldsLoop` is such a closure's loop over its remaining captured
fields; `elems` is the array-fill loop with its remaining count and collected
values. -/
inductive PJob where
  | field : MsgFormat → PJob
  | run : MsgFormat → PJob
  | fieldsLoop : List MsgFormat → PJob
  | elems : MsgFormat → Nat → List Value → PJob

/-- `const arrLength = field.arrayLength || parsingMethods.uint32();`
(JS `0` is falsy, so a stored fixed length of 0 falls through to the
`u32` stream read, exactly like an unbounded array). -/
def readArrayLen (f : MsgFormat) (rs : ReaderState) : Option (Nat × ReaderState) :=
  match f.arrayLength with
  | some n =>
    if n ≠ 0 then some (n, rs)
    else (readUInt32LE rs.buffer rs.offset).map
      fun v => (v, { rs with offset := rs.offset + 4 })
  | none => (readUInt32LE rs.buffer rs.offset).map
      fun v => (v, { rs with offset := rs.offset + 4 })

/-- One element (or one non-array value) of `parseField`:
`stdType ? stdType() : (this.msgTypesParsers.get(field.keyType) ||
this._createParser(field))(reader)`.  `rec` is the recursive decode call
(running a compiled parser closure). -/
def parseElem (rec : MRState → ReaderState → PJob → MRState × ReaderState × Option Value)
    (st : MRState) (rs : ReaderState) (f : MsgFormat) :
    MRState × ReaderState × Option Value :=
  if isStdType f.keyType then
    match stdReadRun f.keyType rs with
    | some (v, rs') => (st, rs', some v)
    | none => (st, rs, none)
  else
    match mapGet st.msgTypesParsers f.keyType with
    | some fmt => rec st rs (.run fmt)
    | none => rec { st with msgTypesParsers := mapSet st.msgTypesParsers f.keyType f } rs (.run f)

/-- The body of one decoder computation (src/message-reader.ts,
`parseField` / `_createParser`), parameterized by the recursive call. -/
def parseStepBody
    (rec : MRState → ReaderState → PJob → MRState × ReaderState × Option Value)
    (st : MRState) (rs : ReaderState) : PJob → MRState × ReaderState × Option Value
  | .field f =>
    if jsTruthyStr f.constantValue then (st, rs, some (.str (f.constantValue.getD "")))
    else if f.isArray then
      match readArrayLen f rs with
      | none => (st, rs, none)
      | some (n, rs') => rec st rs' (.elems f n [])
    else parseElem rec st rs f
  | .run fmt =>
    -- the compiled closure: `this.result = {}` then fill from its captured fields
    rec { st with result := [] } rs (.fieldsLoop fmt.nestedKeys)
  | .fieldsLoop [] => (st, rs, some (.obj st.result))
  | .fieldsLoop (f :: fs) =>
    match rec st rs (.field f) with
    | (st', rs', some v) =>
      rec { st' with result := mapSet st'.result f.key v } rs' (.fieldsLoop fs)
    | (st', rs', none) => (st', rs', none)
  | .elems _ 0 acc => (st, rs, some (.arr acc))
  | .elems f (n + 1) acc =>
    match parseElem rec st rs f with
    | (st', rs', some v) => rec st' rs' (.elems f n (acc ++ [v]))
    | (st', rs', none) => (st', rs', none)

/-- The decoder computation, driven by a fuel that bounds the recursion
through nested types (on a genuinely cyclic schema the source would overflow
the JS stack; fuel exhaustion is modelled as that throw).  A `none` value
models a thrown exception; the `MRState` mutations made before the throw are
kept, as JS heap effects survive an exception. -/
def parseStep : Nat → MRState → ReaderState → PJob → MRState × ReaderState × Option Value
  | 0, st, rs, _ => (st, rs, none)
  | fuel + 1, st, rs, job => parseStepBody (parseStep fuel) st rs job

theorem parseStep_field (fuel : Nat) (st : MRState) (rs : ReaderState) (f : MsgFormat) :
    parseStep (fuel + 1) st rs (.field f) =
      (if jsTruthyStr f.constantValue then (st, rs, some (.str (f.constantValue.getD "")))
      else if f.isArray then
        match readArrayLen f rs with
        | none => (st, rs, none)
        | some (n, rs') => parseStep fuel st rs' (.elems f n [])
      else parseElem (parseStep fuel) st rs f) := rfl

theorem parseStep_run (fuel : Nat) (st : MRState) (rs : ReaderState) (fmt : MsgFormat) :
    parseStep (fuel + 1) st rs (.run fmt) =
      parseStep fuel { st with result := [] } rs (.fieldsLoop fmt.nestedKeys) := rfl

theorem parseStep_fieldsLoop_nil (fuel : Nat) (st : MRState) (rs : ReaderState) :
    parseStep (fuel + 1) st rs (.fieldsLoop []) = (st, rs, some (.obj st.result)) := rfl

theorem parseStep_fieldsLoop_cons (fuel : Nat) (st : MRState) (rs : ReaderState)
    (f : MsgFormat) (fs : List MsgFormat) :
    parseStep (fuel + 1) st rs (.fieldsLoop (f :: fs)) =
      (match parseStep fuel st rs (.field f) with
      | (st', rs', some v) =>
        parseStep fuel { st' with result := mapSet st'.result f.key v } rs' (.fieldsLoop fs)
      | (st', rs', none) => (st', rs', none)) := rfl

theorem parseStep_elems_zero (fuel : Nat) (st : MRState) (rs : ReaderState)
    (f : MsgFormat) (acc : List Value) :
    parseStep (fuel + 1) st rs (.elems f 0 acc) = (st, rs, some (.arr acc)) := rfl

theorem parseStep_elems_succ (fuel : Nat) (st : MRState) (rs : ReaderState)
    (f : MsgFormat) (n : Nat) (acc : List Value) :
    parseStep (fuel + 1) st rs (.elems f (n + 1) acc) =
      (match parseElem (parseStep fuel) st rs f with
      | (st', rs', some v) => parseStep fuel st' rs' (.elems f n (acc ++ [v]))
      | (st', rs', none) => (st', rs', none)) := rfl

/-- `parseField` of `MessageReaders`. -/
def parseField (fuel : Nat) (st : MRState) (rs : ReaderState) (f : MsgFormat) :
    MRState × ReaderState × Option Value :=
  parseStep fuel st rs (.field f)

/-- The `_schemas`-gated registration loop of `readMsg`: walk the schema's
`MSGSTypes` values in insertion order and compile (cache) a parser for each
type name not yet present. -/
def registerSchemaTypes (st : MRState) : List (String × MsgFormat) → MRState
  | [] => st
  | (_, fmt) :: rest =>
    if (mapGet st.msgTypesParsers fmt.keyType).isSome then registerSchemaTypes st rest
    else
      registerSchemaTypes
        { st with msgTypesParsers := mapSet st.msgTypesParsers fmt.keyType fmt } rest

/-- The `this.msg` fill loop of `readMsg` over the schema's top-level keys. -/
def readMsgFields (fuel : Nat) : MRState → ReaderState → List MsgFormat →
    List (String × Value) → MRState × ReaderState × Option (List (String × Value))
  | st, rs, [], acc => (st, rs, some acc)
  | st, rs, f :: fs, acc =>
    match parseStep fuel st rs (.field f) with
    | (st', rs', some v) => readMsgFields fuel st' rs' fs (mapSet acc f.key v)
    | (st', rs', none) => (st', rs', none)

/-- `readMsg` of `MessageReaders` (src/message-reader.ts): fresh cursor over
the payload, one-time per-`msgType` registration of the schema's nested-type
parsers, then the top-level field loop.  `none` models a thrown decode
error; parser-cache mutations made before the throw persist. -/
def readMsg (fuel : Nat) (st : MRState) (msgType : String) (schema : MsgSchema)
    (buffer : Bytes) : MRState × Option Value :=
  let rs : ReaderState := ⟨buffer, 0⟩
  let st :=
    if (mapGet st.schemas msgType).getD false then st
    else
      let st' := registerSchemaTypes st schema.MSGSTypes
      { st' with schemas := mapSet st'.schemas msgType true }
  match readMsgFields fuel st rs schema.topLevelKeys [] with
  | (st', _, some msg) => (st', some (.obj msg))
  | (st', _, none) => (st', none)

/-- The pristine `MessageReaders` state (`new MessageReaders()`). -/
def initMR : MRState := ⟨[], [], []⟩

/-! ## Bag inspector (src/unnamed/part_001, `BagInspector`) -/

/-- `bag-format-constants.ts` (src/unnamed/part_000). -/
def FORMAT_VERSION_OFFSET : Nat := 13

/-- `"#ROSBAG V2.0\n"` as bytes.  The source compares
`subarray(0, 13).toString() !== FORMAT_VERSION`; UTF-8 decoding is injective
wherever it can produce this all-ASCII string, so comparing the raw bytes is
equivalent. -/
def FORMAT_VERSION_BYTES : Bytes := asciiBytes "#ROSBAG V2.0\n"

def HEADER_MIN_LEN : Nat := 8

def HEADER_PADDING : Nat := 4096

/-- The four outcomes of `BagInspector._verifyHeader`, distinguished in the
source by their error strings. -/
inductive HeaderCheck where
  | valid
  | invalidMagic
  | truncated
  | headerTooLarge
deriving DecidableEq

/-- `_verifyHeader` (src/unnamed/part_001): magic bytes, minimum envelope,
then `headerLength = readInt32LE(13)` (signed!) checked against the buffer
length.  The inner `none` branch is unreachable (the length guard ensures
13 + 4 bytes exist). -/
def verifyHeader (b : Bytes) : HeaderCheck :=
  if jsSub b 0 (FORMAT_VERSION_OFFSET : Nat) ≠ FORMAT_VERSION_BYTES then .invalidMagic
  else if b.length < FORMAT_VERSION_OFFSET + HEADER_MIN_LEN then .truncated
  else
    match readInt32LE b (FORMAT_VERSION_OFFSET : Nat) with
    | none => .truncated
    | some headerLength =>
      if (b.length : Int) < (FORMAT_VERSION_OFFSET : Int) + (HEADER_MIN_LEN : Int) + headerLength
      then .headerTooLarge
      else .valid

/-- `IChunkInfo` (models/chunk-info-manager.model.ts).  The `IRecord`
bookkeeping offsets are omitted: no modelled operation reads them.
`nextChunkPosition` starts as the source's `undefined` placeholder value and
is assigned by the metadata post-processing before any use. -/
structure ChunkInfo where
  version : Option Nat
  chunkPosition : Nat
  startTime : Time
  endTime : Time
  count : Nat
  connections : List (Nat × Nat)
  idx : Nat
  nextChunkPosition : Nat
deriving DecidableEq

/-- `Array.prototype.map`'s index-passing form. -/
def mapWithIdxGo {α β : Type} (f : Nat → α → β) : Nat → List α → List β
  | _, [] => []
  | i, a :: as => f i a :: mapWithIdxGo f (i + 1) as

def mapWithIdx {α β : Type} (f : Nat → α → β) (l : List α) : List β :=
  mapWithIdxGo f 0 l

/-- The comparator passed to `.sort` in `_extractFileMetadata$`, as the
non-strict order it induces (`compareTime(a, b) <= 0` puts `a` before `b`).
JS `Array.prototype.sort` is stable and, for this consistent comparator,
returns the unique stable sorted permutation — which `List.insertionSort`
with this relation computes. -/
def chunkLE (a b : ChunkInfo) : Prop := compareTime a.startTime b.startTime ≤ 0

instance : DecidableRel chunkLE := fun a b => by
  unfold chunkLE
  infer_instance

/-- The chunk-info post-processing of `_extractFileMetadata$`
(src/unnamed/part_001): *first* assign
`nextChunkPosition = chunksInfo[i + 1]?.chunkPosition || file.size` over the
encountered order (JS `||`: both a missing next chunk and a `chunkPosition`
of `0` fall back to the file size), *then* stable-sort by `startTime`, then
assign `idx = i` over the sorted order. -/
def postProcessChunks (fileSize : Nat) (cs : List ChunkInfo) : List ChunkInfo :=
  let linked := mapWithIdx
    (fun i c =>
      { c with
        nextChunkPosition :=
          match cs[i + 1]? with
          | some c2 => if c2.chunkPosition = 0 then fileSize else c2.chunkPosition
          | none => fileSize })
    cs
  mapWithIdx (fun i c => { c with idx := i }) (linked.insertionSort chunkLE)

/-! ## Chunk decoder and cache (src/chunk-info-manager.ts) -/

/-- `IConnection` (record offsets omitted; no modelled operation reads
them). -/
structure Connection where
  conn : Nat
  topicName : String
  messageType : String
  md5sum : String
  messageDefinition : String

/-- `IRosbagMessage`. -/
structure RosbagMessage where
  topic : String
  time : Time
  data : Value

/-- `IIndexDataMsg`. -/
structure IndexDataMsg where
  recievedTime : Time
  msgDataOffset : Nat
deriving DecidableEq

/-- `IIndexData` (record offsets omitted). -/
structure IndexData where
  version : Nat
  conn : Nat
  count : Nat
  recievedMsgs : List IndexDataMsg

/-- The `Array.from({length: count}, ...)` of `_parseIndexDataRecord`:
entry `i` is `(time at 12i, u32 at 12i + 8)`; an out-of-range read throws. -/
def parseIndexMsgs (data : Bytes) : Nat → Nat → List IndexDataMsg → JSRes (List IndexDataMsg)
  | 0, _, acc => .ok acc
  | n + 1, i, acc =>
    match extractTime data (12 * i : Nat), readUInt32LE data ((12 * i + 8 : Nat) : Int) with
    | .ok t, some off => parseIndexMsgs data n (i + 1) (acc ++ [⟨t, off⟩])
    | _, _ => .thrown

/-- `_parseIndexDataRecord` (src/chunk-info-manager.ts): required header
fields `count`, `ver`, `conn`; a missing field dereferences `undefined`
(TypeError, `.thrown`). -/
def parseIndexDataRecord (record : RecordShallow) : JSRes IndexData :=
  match rfGet record.recordHeaderFields (asciiBytes "count") with
  | none => .thrown
  | some countB =>
    match readUInt32LE countB 0 with
    | none => .thrown
    | some count =>
      match rfGet record.recordHeaderFields (asciiBytes "ver"),
            rfGet record.recordHeaderFields (asciiBytes "conn") with
      | some verB, some connB =>
        match readUInt32LE verB 0, readUInt32LE connB 0 with
        | some ver, some conn =>
          match parseIndexMsgs record.recordDataBuffer count 0 [] with
          | .ok msgs => .ok ⟨ver, conn, count, msgs⟩
          | _ => .thrown
        | _, _ => .thrown
      | _, _ => .thrown

/-- The non-strict order induced by the `compareTime` comparator on message
pointers (`sort((a, b) => compareTime(a.recievedTime, b.recievedTime))`). -/
def ptrLE (a b : IndexDataMsg) : Prop := compareTime a.recievedTime b.recievedTime ≤ 0

instance : DecidableRel ptrLE := fun a b => by
  unfold ptrLE
  infer_instance

/-- One iteration of the `_processChunkBuffer` decode loop: `shallowRecordRead`
of the decompressed data at the pointer offset (`undefined` → skip, `.ok
(none, ...)`), `conn` lookup (absent → skip), `time` from the record header,
schema memoization by `messageType`, then `readMsg` (a throw there is caught:
warn and skip).  Failures outside the `try` block abort the whole chunk
(`.thrown`). -/
def decodeOne (conns : List (Nat × Connection)) (decomp : Bytes) (dataOffset : Int)
    (fuel : Nat) (p : IndexDataMsg) (schemas : List (String × MsgSchema))
    (readers : MRState) :
    JSRes (Option RosbagMessage × List (String × MsgSchema) × MRState) :=
  match shallowRecordRead (jsSubFrom decomp (p.msgDataOffset : Nat)) dataOffset with
  | .undef => .ok (none, schemas, readers)
  | .thrown => .thrown
  | .ok msgRecord =>
    match rfGet msgRecord.recordHeaderFields (asciiBytes "conn") with
    | none => .thrown
    | some connB =>
      match readUInt32LE connB 0 with
      | none => .thrown
      | some conn =>
        match mapGet conns conn with
        | none => .ok (none, schemas, readers)
        | some connection =>
          match rfGet msgRecord.recordHeaderFields (asciiBytes "time") with
          | none => .thrown
          | some timeB =>
            match extractTime timeB 0 with
            | .ok time =>
              match
                (match mapGet schemas connection.messageType with
                  | some s => some (s, schemas)
                  | none =>
                    (parseMsgDefinition connection.messageDefinition).map
                      fun s => (s, mapSet schemas connection.messageType s)) with
              | none => .thrown
              | some (schema, schemas') =>
                match readMsg fuel readers connection.messageType schema
                    msgRecord.recordDataBuffer with
                | (readers', some parsed) =>
                  .ok (some ⟨connection.topicName, time, parsed⟩, schemas', readers')
                | (readers', none) => .ok (none, schemas', readers')
            | _ => .thrown

/-- The `for` loop over the sorted pointers of `_processChunkBuffer`, one
`decodeOne` per pointer; a decoded message is pushed onto `rosMessages`
(`acc`), a skip leaves it unchanged, and an uncaught throw aborts. -/
def decodeLoop (conns : List (Nat × Connection)) (decomp : Bytes) (dataOffset : Int)
    (fuel : Nat) :
    List IndexDataMsg → List (String × MsgSchema) → MRState → List RosbagMessage →
    JSRes (List RosbagMessage × List (String × MsgSchema) × MRState)
  | [], schemas, readers, acc => .ok (acc, schemas, readers)
  | p :: ps, schemas, readers, acc =>
    match decodeOne conns decomp dataOffset fuel p schemas readers with
    | .ok (some m, schemas', readers') =>
      decodeLoop conns decomp dataOffset fuel ps schemas' readers' (acc ++ [m])
    | .ok (none, schemas', readers') =>
      decodeLoop conns decomp dataOffset fuel ps schemas' readers' acc
    | _ => .thrown

/-- The record-header `time` a pointer's record decodes to (the `time` pushed
with the message in `_processChunkBuffer`), when the decode chain reaches it:
the same `shallowRecordRead` / `recordHeaderFields.time` / `extractTime`
steps as `decodeOne`. -/
def headerTimeOf (decomp : Bytes) (dataOffset : Int) (p : IndexDataMsg) : Option Time :=
  match shallowRecordRead (jsSubFrom decomp (p.msgDataOffset : Nat)) dataOffset with
  | .ok msgRecord =>
    match rfGet msgRecord.recordHeaderFields (asciiBytes "time") with
    | some timeB =>
      match extractTime timeB 0 with
      | .ok t => some t
      | _ => none
    | none => none
  | _ => none


/-- `_processChunkBuffer` (src/chunk-info-manager.ts).  `lz4` is the external
lz4js library as an oracle; `fuel` drives the decoder recursion (see
`parseStep`).  Returns the decoded messages plus the updated schema memo and
reader state. -/
def processChunkBuffer (lz4 : Bytes → Nat → Option Bytes)
    (conns : List (Nat × Connection)) (schemas : List (String × MsgSchema))
    (readers : MRState) (fuel : Nat) (buffer : Bytes) (chunkInfo : ChunkInfo) :
    JSRes (List RosbagMessage × List (String × MsgSchema) × MRState) :=
  match shallowRecordRead buffer (chunkInfo.chunkPosition : Nat) with
  | .undef => .ok ([], schemas, readers)
  | .thrown => .thrown
  | .ok chunk =>
    match rfGet chunk.recordHeaderFields (asciiBytes "compression") with
    | none => .thrown
    | some compressionB =>
      match rfGet chunk.recordHeaderFields (asciiBytes "size") with
      | none => .thrown
      | some sizeB =>
        match readUInt32LE sizeB 0 with
        | none => .thrown
        | some chunkSize =>
          match recordDecompression lz4 (asciiToString compressionB)
              chunk.recordDataBuffer chunkSize with
          | .ok decomp =>
            match retrieveRecordsFromBuffer (jsSubFrom buffer chunk.recordLength)
                chunkInfo.count (chunkInfo.chunkPosition + chunk.recordLength)
                parseIndexDataRecord with
            | .ok indexedDataList =>
              let messagePointers := (indexedDataList.map (fun d => d.recievedMsgs)).flatten
              let sortedPointers := messagePointers.insertionSort ptrLE
              decodeLoop conns decomp chunk.recordDataOffset fuel sortedPointers
                schemas readers []
            | _ => .thrown
          | _ => .thrown

/-- The front part of the `_processChunkBuffer` pipeline, as a projection:
the decompressed chunk data, the record-data offset, and the flattened
(unsorted) message pointers, with every failure collapsed to `none`.  The
lemma `processChunkBuffer_eq_decodeLoop` certifies stage by stage that this
names exactly the values `processChunkBuffer` hands to the sort-and-decode
loop. -/
def chunkDecompAndPointers (lz4 : Bytes → Nat → Option Bytes)
    (buffer : Bytes) (chunkInfo : ChunkInfo) :
    Option (Bytes × Int × List IndexDataMsg) :=
  match shallowRecordRead buffer (chunkInfo.chunkPosition : Nat) with
  | .undef => none
  | .thrown => none
  | .ok chunk =>
    match rfGet chunk.recordHeaderFields (asciiBytes "compression") with
    | none => none
    | some compressionB =>
      match rfGet chunk.recordHeaderFields (asciiBytes "size") with
      | none => none
      | some sizeB =>
        match readUInt32LE sizeB 0 with
        | none => none
        | some chunkSize =>
          match recordDecompression lz4 (asciiToString compressionB)
              chunk.recordDataBuffer chunkSize with
          | .ok decomp =>
            match retrieveRecordsFromBuffer (jsSubFrom buffer chunk.recordLength)
                chunkInfo.count (chunkInfo.chunkPosition + chunk.recordLength)
                parseIndexDataRecord with
            | .ok indexedDataList =>
              some (decomp, chunk.recordDataOffset,
                (indexedDataList.map (fun d => d.recievedMsgs)).flatten)
            | _ => none
          | _ => none

/-- `IChunkCache`. -/
structure ChunkCacheEntry where
  messages : List RosbagMessage
  size : Int

/-- The cache of `ChunkInfoManager`: the insertion-ordered `Map` from chunk
idx to entry, plus `_currentCacheBytes`. -/
structure CacheState where
  entries : List (Nat × ChunkCacheEntry)
  currentBytes : Int

/-- `_maxCacheBytes = 50 * 1024 * 1024`. -/
def maxCacheBytes : Int := 50 * 1024 * 1024

/-- The `_cleanupCache` while-loop: while over budget and non-empty, drop the
oldest insertion-order entry and subtract its size. -/
def cleanupCacheGo : List (Nat × ChunkCacheEntry) → Int → List (Nat × ChunkCacheEntry) × Int
  | [], bytes => ([], bytes)
  | e :: rest, bytes =>
    if maxCacheBytes < bytes then cleanupCacheGo rest (bytes - e.2.size)
    else (e :: rest, bytes)

/-- `_cleanupCache` (src/chunk-info-manager.ts). -/
def cleanupCache (cs : CacheState) : CacheState :=
  let r := cleanupCacheGo cs.entries cs.currentBytes
  ⟨r.1, r.2⟩

/-- The cache insertion performed in `readChunk$`'s `onload` handler:
`set(idx, {messages, size})`, add the size
(`nextChunkPosition - chunkPosition`, billed by the caller), then evict. -/
def cacheInsert (cs : CacheState) (idx : Nat) (messages : List RosbagMessage)
    (chunkSize : Int) : CacheState :=
  cleanupCache
    ⟨mapSet cs.entries idx ⟨messages, chunkSize⟩, cs.currentBytes + chunkSize⟩

/-- The `onload` success path of `readChunk$` for an uncached chunk: decode
the fetched byte range, then insert the result billed at
`nextChunkPosition - chunkPosition`. -/
def readChunkOnLoad (lz4 : Bytes → Nat → Option Bytes)
    (conns : List (Nat × Connection)) (schemas : List (String × MsgSchema))
    (readers : MRState) (fuel : Nat) (cache : CacheState) (buffer : Bytes)
    (chunkInfo : ChunkInfo) :
    JSRes (CacheState × List RosbagMessage × List (String × MsgSchema) × MRState) :=
  match processChunkBuffer lz4 conns schemas readers fuel buffer chunkInfo with
  | .ok (messages, schemas', readers') =>
    let chunkSize : Int := (chunkInfo.nextChunkPosition : Int) - chunkInfo.chunkPosition
    .ok (cacheInsert cache chunkInfo.idx messages chunkSize, messages, schemas', readers')
  | _ => .thrown

/-! ## Playback orchestrator (src/models/bag-inspector.model.ts,
`RosbagManager`) -/

/-- `IRosbagOptions`. -/
structure RosbagOptions where
  prefetch : ℚ
  playbackSpeed : ℚ
  loop : Bool

/-- The two metadata times the tick handler reads. -/
structure BagMetadataTimes where
  startTime : Time
  endTime : Time

/-- `t.sec + t.nsec / 1e9`, the `lastPrefetchTimeSec` bookkeeping value. -/
def timeSecQ (t : Time) : ℚ := qAdd (Rat.divInt t.sec 1) (qDivInt (Rat.divInt t.nsec 1) 1000000000)

/-- The observable effects and updated captured state of one playback tick. -/
structure TickResult where
  publishedTime : Time
  emittedBatch : Option (List RosbagMessage)
  prefetchAt : Option Time
  newAnchor : Time
  newWallStart : ℚ
  newLastPrefetchSec : ℚ
  stillPlaying : Bool

/-- One tick of the `play()` interval subscription
(src/models/bag-inspector.model.ts): compute the elapsed wall time, the new
bag time (speed-scaled) and the one-tick-window previous time (not scaled);
at or past `endTime` either loop (publish `startTime`, re-anchor, prefetch at
the start, emit nothing) or pause-and-rewind; otherwise publish the new time,
emit the `[previous, new]` window batch, and run the prefetch gate.
`getMessages` abstracts `_getMessagesInRange` over the current cache; the
source's literal `0.033` double is modelled as `33/1000` (no claim depends on
its last-bit value). -/
def playbackTick (opts : RosbagOptions) (meta : BagMetadataTimes)
    (getMessages : Time → Time → List RosbagMessage)
    (anchor : Time) (wallStart now lastPrefetchSec : ℚ) : TickResult :=
  let elapsedSec := qDivInt (qSub now wallStart) 1000
  let newBagTime := addSecToTime anchor (qMul elapsedSec opts.playbackSpeed)
  let newTimeSec := timeSecQ newBagTime
  let previousBagTime := addSecToTime anchor (qSub elapsedSec (Rat.divInt 33 1000))
  if ¬ isLessThan newBagTime meta.endTime then
    if opts.loop then
      { publishedTime := meta.startTime
        emittedBatch := none
        prefetchAt := some meta.startTime
        newAnchor := meta.startTime
        newWallStart := now
        newLastPrefetchSec := timeSecQ meta.startTime
        stillPlaying := true }
    else
      { publishedTime := meta.startTime
        emittedBatch := none
        prefetchAt := none
        newAnchor := anchor
        newWallStart := wallStart
        newLastPrefetchSec := lastPrefetchSec
        stillPlaying := false }
  else
    let messages := getMessages previousBagTime newBagTime
    if qDivInt opts.prefetch 2 < qSub newTimeSec lastPrefetchSec then
      { publishedTime := newBagTime
        emittedBatch := some messages
        prefetchAt := some newBagTime
        newAnchor := anchor
        newWallStart := wallStart
        newLastPrefetchSec := newTimeSec
        stillPlaying := true }
    else
      { publishedTime := newBagTime
        emittedBatch := some messages
        prefetchAt := none
        newAnchor := anchor
        newWallStart := wallStart
        newLastPrefetchSec := lastPrefetchSec
        stillPlaying := true }

/-! ## Claim C9 — 64-bit integer reads -/

/-- **C9** (code-bug evidence): the `uint64` reader goes through the int53
double-narrowing helper, so the 8-byte little-endian input
`01 00 00 00 00 00 20 00` — whose exact value is `2^53 + 1` — decodes to
`2^53`, not the exact integer the claim requires.  (The `int64` reader uses
the same narrowing.) -/
theorem uint64_read_narrows_above_2_53 :
    stdReadRun "uint64" ⟨[1, 0, 0, 0, 0, 0, 32, 0], 0⟩ =
      some (.int 9007199254740992, ⟨[1, 0, 0, 0, 0, 0, 32, 0], 8⟩) ∧
    exactUInt64LE [1, 0, 0, 0, 0, 0, 32, 0] 0 = some 9007199254740993 ∧
    (9007199254740992 : Int) ≠ 9007199254740993 := by
  refine ⟨rfl, by decide, by decide⟩

/-! ## Shared lemmas -/

/-- The non-strict order induced by `compareTime`. -/
def timeLE (a b : Time) : Prop := compareTime a b ≤ 0

instance : DecidableRel timeLE := fun a b => by
  unfold timeLE
  infer_instance

/-- The non-strict order induced by `compareTime` on decoded messages'
`time` fields (what "sorted ascending by time" means). -/
def msgLE (a b : RosbagMessage) : Prop := timeLE a.time b.time

instance : DecidableRel msgLE := fun a b => by
  unfold msgLE
  infer_instance

theorem compareTime_le_iff {a b : Time} :
    compareTime a b ≤ 0 ↔ a.sec < b.sec ∨ (a.sec = b.sec ∧ a.nsec ≤ b.nsec) := by
  simp only [compareTime]
  split <;> omega

theorem timeLE_total (a b : Time) : timeLE a b ∨ timeLE b a := by
  simp only [timeLE, compareTime_le_iff]
  omega

theorem timeLE_trans {a b c : Time} (h1 : timeLE a b) (h2 : timeLE b c) : timeLE a c := by
  simp only [timeLE, compareTime_le_iff] at *
  omega

instance : IsTotal Time timeLE := ⟨timeLE_total⟩

instance : IsTrans Time timeLE := ⟨fun _ _ _ => timeLE_trans⟩

instance : IsTotal ChunkInfo chunkLE :=
  ⟨fun a b => timeLE_total a.startTime b.startTime⟩

instance : IsTrans ChunkInfo chunkLE :=
  ⟨fun _ _ _ h1 h2 => timeLE_trans h1 h2⟩

instance : IsTotal IndexDataMsg ptrLE :=
  ⟨fun a b => timeLE_total a.recievedTime b.recievedTime⟩

instance : IsTrans IndexDataMsg ptrLE :=
  ⟨fun _ _ _ h1 h2 => timeLE_trans h1 h2⟩

theorem readUInt32LE_isSome {b : Bytes} {o : Nat} (h : o + 4 ≤ b.length) :
    ∃ n, readUInt32LE b (o : Nat) = some n := by
  have hd : 4 ≤ (b.drop o).length := by
    rw [List.length_drop]
    omega
  unfold readUInt32LE
  rw [if_neg (by omega)]
  match hL : b.drop o with
  | [] => rw [hL] at hd; simp at hd
  | [_] => rw [hL] at hd; simp at hd
  | [_, _] => rw [hL] at hd; simp at hd
  | [_, _, _] => rw [hL] at hd; simp at hd
  | b0 :: b1 :: b2 :: b3 :: rest =>
    refine ⟨b0 + 256 * b1 + 65536 * b2 + 16777216 * b3, ?_⟩
    rfl

/-! ## Claim C1 — `addSecToTime` arithmetic -/

/-- **C1** (code-bug evidence): `addSecToTime` mishandles negative fractional
offsets because the JS `%` is a truncated — not Euclidean — remainder.  At
`t = {sec: 5, nsec: 0}`, `s = -0.25` the source returns
`{sec: 3, nsec: -250000000}`: the `-1` from `Math.floor(s)` is double-counted
against the truncated `s % 1`, and `nsec` leaves `[0, 1e9)`; the claimed
`add` (Euclidean, `addSecToTimeSpec`) yields `{sec: 4, nsec: 750000000}`
there.  The claimed non-negative example `add({0, 5e8}, 0.5) = {1, 0}` does
hold of the source. -/
theorem addSecToTime_truncated_mod_bug :
    addSecToTime ⟨5, 0⟩ (Rat.divInt (-1) 4) = ⟨3, -250000000⟩ ∧
    addSecToTimeSpec ⟨5, 0⟩ (Rat.divInt (-1) 4) = ⟨4, 750000000⟩ ∧
    addSecToTime ⟨5, 0⟩ (Rat.divInt (-1) 4) ≠
      addSecToTimeSpec ⟨5, 0⟩ (Rat.divInt (-1) 4) ∧
    addSecToTime ⟨0, 500000000⟩ (Rat.divInt 1 2) = ⟨1, 0⟩ ∧
    ¬ (0 ≤ (addSecToTime ⟨5, 0⟩ (Rat.divInt (-1) 4)).nsec ∧
        (addSecToTime ⟨5, 0⟩ (Rat.divInt (-1) 4)).nsec < 1000000000) := by
  decide

/-! ## Claim C4 — cache eviction keeps `current_bytes ≤ max_bytes` -/

/-- The byte total of the cache entries, the quantity `_currentCacheBytes`
tracks. -/
def sumCacheSizes (entries : List (Nat × ChunkCacheEntry)) : Int :=
  (entries.map (fun e => e.2.size)).sum

theorem cleanupCacheGo_spec :
    ∀ (entries : List (Nat × ChunkCacheEntry)) (bytes : Int),
      bytes = sumCacheSizes entries →
      (cleanupCacheGo entries bytes).2 ≤ maxCacheBytes ∧
      (cleanupCacheGo entries bytes).2 = sumCacheSizes (cleanupCacheGo entries bytes).1
  | [], bytes, h => by
    simp only [sumCacheSizes, List.map_nil, List.sum_nil] at h
    subst h
    exact ⟨by decide, rfl⟩
  | e :: rest, bytes, h => by
    rw [cleanupCacheGo]
    split
    · exact cleanupCacheGo_spec rest (bytes - e.2.size) (by
        simp only [sumCacheSizes, List.map_cons, List.sum_cons] at h ⊢
        omega)
    · exact ⟨by omega, h⟩

/-- **C4**: after an insertion (of a fresh chunk idx, as `readChunk$`
guarantees via its `has` check) completes its eviction pass,
`current_bytes ≤ max_bytes = 50 MiB` and the byte accounting is preserved;
and the concrete scenario — inserting 30 MiB then 25 MiB into an empty
cache — evicts the first entry and leaves 25 MiB. -/
theorem cacheInsert_bounded (cs : CacheState) (idx : Nat)
    (msgs : List RosbagMessage) (size : Int)
    (hacct : cs.currentBytes = sumCacheSizes cs.entries)
    (hfresh : ∀ p ∈ cs.entries, p.1 ≠ idx) :
    (cacheInsert cs idx msgs size).currentBytes ≤ maxCacheBytes ∧
    (cacheInsert cs idx msgs size).currentBytes =
      sumCacheSizes (cacheInsert cs idx msgs size).entries ∧
    cacheInsert (cacheInsert ⟨[], 0⟩ 0 [] (30 * 1048576)) 1 [] (25 * 1048576) =
      ⟨[(1, ⟨[], 25 * 1048576⟩)], 25 * 1048576⟩ := by
  have hany : cs.entries.any (fun p => p.1 = idx) = false := by
    rw [List.any_eq_false]
    intro p hp
    simpa using hfresh p hp
  have hset : mapSet cs.entries idx ⟨msgs, size⟩ = cs.entries ++ [(idx, ⟨msgs, size⟩)] := by
    rw [mapSet, hany]
    simp
  have hsum : cs.currentBytes + size =
      sumCacheSizes (mapSet cs.entries idx ⟨msgs, size⟩) := by
    rw [hset]
    simp only [sumCacheSizes, List.map_append, List.sum_append, List.map_cons,
      List.map_nil, List.sum_cons, List.sum_nil] at hacct ⊢
    omega
  have hmain := cleanupCacheGo_spec (mapSet cs.entries idx ⟨msgs, size⟩)
    (cs.currentBytes + size) hsum
  exact ⟨hmain.1, hmain.2, rfl⟩

/-- Witness for C4 at the claim's concrete scenario: the second insertion of
the 30 MiB / 25 MiB sequence. -/
theorem cacheInsert_bounded_witness :
    (cacheInsert ⟨[(0, ⟨[], 30 * 1048576⟩)], 30 * 1048576⟩ 1 [] (25 * 1048576)).currentBytes ≤
      maxCacheBytes :=
  (cacheInsert_bounded ⟨[(0, ⟨[], 30 * 1048576⟩)], 30 * 1048576⟩ 1 [] (25 * 1048576)
    (by decide) (by decide)).1

/-! ## Claim C6 — constant fields -/

/-- **C6** (amended): a field whose `constant_value` is set *and non-empty*
decodes to the constant's string form, consuming no bytes and leaving the
reader state untouched.  (The source's `if (field.constantValue)` is a JS
truthiness test, so the empty-string constant produced by a line like
`uint8 X=` falls through to a real read — see the counterexample.) -/
theorem parseField_constant (fuel : Nat) (st : MRState) (rs : ReaderState)
    (f : MsgFormat) (v : String) (hcv : f.constantValue = some v) (hne : v ≠ "") :
    parseField (fuel + 1) st rs f = (st, rs, some (.str v)) := by
  have ht : jsTruthyStr f.constantValue = true := by
    rw [hcv]
    simpa [jsTruthyStr] using hne
  rw [parseField, parseStep_field, ht]
  simp [hcv]

/-- The `MAX` field compiled from the claim's schema line `uint8 MAX=255`. -/
def c6MaxField : MsgFormat :=
  (((parseMsgDefinition "uint8 MAX=255").map MsgSchema.topLevelKeys).getD []).headD emptyMSG

/-- Witness for C6 at the claim's concrete schema line. -/
theorem parseField_constant_witness :
    c6MaxField.constantValue = some "255" ∧
    parseField 1 initMR ⟨[99], 0⟩ c6MaxField = (initMR, ⟨[99], 0⟩, some (.str "255")) :=
  ⟨rfl, parseField_constant 0 initMR ⟨[99], 0⟩ c6MaxField "255" rfl (by decide)⟩

/-- The `X` field compiled from the schema line `uint8 X=`, whose
`constant_value` is *set* (to the empty string). -/
def c6EmptyConstField : MsgFormat :=
  (((parseMsgDefinition "uint8 X=").map MsgSchema.topLevelKeys).getD []).headD emptyMSG

/-- **C6** (counterexample to the claim as stated): the schema line
`uint8 X=` yields a field with `constant_value` set (to `""`), yet decoding
it against the buffer `[7]` performs a `uint8` read — returning `7` and
advancing the cursor one byte — instead of returning the constant's string
form with no bytes consumed. -/
theorem parseField_empty_constant_counterexample :
    c6EmptyConstField.constantValue = some "" ∧
    parseField 1 initMR ⟨[7], 0⟩ c6EmptyConstField = (initMR, ⟨[7], 1⟩, some (.int 7)) ∧
    Value.int 7 ≠ Value.str "" :=
  ⟨rfl, rfl, fun h => Value.noConfusion h⟩

/-! ## Claim C10 — explicit zero array length reads a stream length -/

/-- Replace a field's fixed array length. -/
def MsgFormat.withArrayLength : MsgFormat → Option Nat → MsgFormat
  | .mk k t a n c _, l => .mk k t a n c l

theorem MsgFormat.withArrayLength_keyType (f : MsgFormat) (l : Option Nat) :
    (f.withArrayLength l).keyType = f.keyType := by
  cases f
  rfl

theorem MsgFormat.withArrayLength_constantValue (f : MsgFormat) (l : Option Nat) :
    (f.withArrayLength l).constantValue = f.constantValue := by
  cases f
  rfl

theorem MsgFormat.withArrayLength_isArray (f : MsgFormat) (l : Option Nat) :
    (f.withArrayLength l).isArray = f.isArray := by
  cases f
  rfl

theorem MsgFormat.withArrayLength_arrayLength (f : MsgFormat) (l : Option Nat) :
    (f.withArrayLength l).arrayLength = l := by
  cases f
  rfl

/-- A fixed length of `0` produces exactly the `u32` stream read of the
unbounded declaration. -/
theorem readArrayLen_zero (f : MsgFormat) (rs : ReaderState)
    (h0 : f.arrayLength = some 0) :
    readArrayLen f rs = readArrayLen (f.withArrayLength none) rs := by
  simp [readArrayLen, h0, MsgFormat.withArrayLength_arrayLength]

/-- The array-fill loop never reads `arrayLength`: for a primitive element
type it is insensitive to replacing the declared length. -/
theorem parseStep_elems_withArrayLength (fuel : Nat) (st : MRState) (rs : ReaderState)
    (f : MsgFormat) (n : Nat) (acc : List Value) (hstd : isStdType f.keyType = true) :
    parseStep fuel st rs (.elems (f.withArrayLength none) n acc) =
      parseStep fuel st rs (.elems f n acc) := by
  induction fuel generalizing st rs n acc with
  | zero => rfl
  | succ fuel ih =>
    cases n with
    | zero => rfl
    | succ n =>
      rw [parseStep_elems_succ, parseStep_elems_succ]
      have he : parseElem (parseStep fuel) st rs (f.withArrayLength none) =
          parseElem (parseStep fuel) st rs f := by
        simp only [parseElem, MsgFormat.withArrayLength_keyType, hstd, if_true]
      rw [he]
      obtain ⟨st', rs', v?⟩ := parseElem (parseStep fuel) st rs f
      cases v? with
      | none => rfl
      | some v => exact ih _ _ _ _

/-- **C10**: a schema field declared with an explicit fixed array length of
`0` (e.g. `uint8[0] x`) does not decode zero elements; because JS `0` is
falsy in `field.arrayLength || parsingMethods.uint32()`, it behaves exactly
like an unbounded `[]` array — reading a `u32` little-endian element count
from the cursor and decoding that many elements.  (Stated for primitive
element types, the claim's own example; for message-typed elements the same
reads happen, but the parser cache additionally stores the declaration
verbatim.) -/
theorem parseField_zero_length_array (fuel : Nat) (st : MRState) (rs : ReaderState)
    (f : MsgFormat) (ha : f.isArray = true) (h0 : f.arrayLength = some 0)
    (hstd : isStdType f.keyType = true) :
    parseField fuel st rs f = parseField fuel st rs (f.withArrayLength none) := by
  cases fuel with
  | zero => rfl
  | succ fuel =>
    rw [parseField, parseField, parseStep_field, parseStep_field,
      MsgFormat.withArrayLength_constantValue, MsgFormat.withArrayLength_isArray,
      ← readArrayLen_zero f rs h0]
    cases hjt : jsTruthyStr f.constantValue with
    | true => simp [hjt]
    | false =>
      simp only [hjt, Bool.false_eq_true, if_false, ha, if_true]
      cases hral : readArrayLen f rs with
      | none => rfl
      | some nrs =>
        obtain ⟨n, rs'⟩ := nrs
        exact (parseStep_elems_withArrayLength fuel st rs' f n [] hstd).symm

/-- The `x` field compiled from the schema line `uint8[0] x`. -/
def c10ZeroLenField : MsgFormat :=
  (((parseMsgDefinition "uint8[0] x").map MsgSchema.topLevelKeys).getD []).headD emptyMSG

/-- Witness for C10: the `uint8[0] x` field over the buffer
`[2,0,0,0, 5, 6]` reads the stream length `2` and then two `uint8`
elements, exactly as the unbounded declaration would. -/
theorem parseField_zero_length_array_witness :
    c10ZeroLenField.isArray = true ∧
    c10ZeroLenField.arrayLength = some 0 ∧
    parseField 5 initMR ⟨[2, 0, 0, 0, 5, 6], 0⟩ c10ZeroLenField =
      parseField 5 initMR ⟨[2, 0, 0, 0, 5, 6], 0⟩ (c10ZeroLenField.withArrayLength none) ∧
    parseField 5 initMR ⟨[2, 0, 0, 0, 5, 6], 0⟩ c10ZeroLenField =
      (initMR, ⟨[2, 0, 0, 0, 5, 6], 6⟩, some (.arr [.int 5, .int 6])) :=
  ⟨rfl, rfl,
    parseField_zero_length_array 5 initMR ⟨[2, 0, 0, 0, 5, 6], 0⟩ c10ZeroLenField
      rfl rfl rfl,
    rfl⟩

/-! ## Claim C3 — `extractFields` round-trip -/

theorem extractFieldsGo_succ (b : Bytes) (fuel : Nat) (offset : Int) (acc : RecordFields)
    (h : offset < (b.length : Int)) :
    extractFieldsGo b (fuel + 1) offset acc =
      (match readInt32LE b offset with
      | none => .thrown
      | some fieldLen =>
        match findEqIdx 61 (jsSub b (offset + 4) (offset + 4 + fieldLen)) with
        | none => .undef
        | some i =>
          extractFieldsGo b fuel (offset + 4 + fieldLen)
            (rfInsert acc ((jsSub b (offset + 4) (offset + 4 + fieldLen)).take i)
              ((jsSub b (offset + 4) (offset + 4 + fieldLen)).drop (i + 1)))) := by
  rw [extractFieldsGo.eq_def]
  dsimp only
  rw [if_pos h]

theorem extractFieldsGo_stop (b : Bytes) (fuel : Nat) (offset : Int) (acc : RecordFields)
    (h : ¬ offset < (b.length : Int)) :
    extractFieldsGo b fuel offset acc = .ok acc := by
  rw [extractFieldsGo.eq_def]
  dsimp only
  rw [if_neg h]

theorem findEqIdx_none_iff (t : Nat) : ∀ l : Bytes, findEqIdx t l = none ↔ t ∉ l
  | [] => by simp [findEqIdx]
  | b :: bs => by
    rw [findEqIdx]
    by_cases hb : b = t
    · simp [hb]
    · rw [if_neg hb]
      simp only [Option.map_eq_none', findEqIdx_none_iff t bs, List.mem_cons]
      constructor
      · intro hnm hc
        rcases hc with hc | hc
        · exact hb hc.symm
        · exact hnm hc
      · intro hnm hc
        exact hnm (Or.inr hc)

theorem findEqIdx_sep (v : Bytes) :
    ∀ k : Bytes, 61 ∉ k → findEqIdx 61 (k ++ 61 :: v) = some k.length
  | [], _ => by simp [findEqIdx]
  | b :: k', h => by
    have hb : b ≠ 61 := fun e => h (by simp [e])
    rw [List.cons_append, findEqIdx, if_neg hb,
      findEqIdx_sep v k' (fun e => h (List.mem_cons_of_mem _ e))]
    rfl

theorem readUInt32LE_of_drop {b : Bytes} {o n : Nat} {rest : Bytes}
    (hd : b.drop o = u32le n ++ rest) (hn : n < 4294967296) :
    readUInt32LE b ((o : Nat) : Int) = some n := by
  rw [readUInt32LE, if_neg (by omega)]
  rw [show ((o : Int)).toNat = o from by omega, hd]
  show some (n % 256 + 256 * (n / 256 % 256) + 65536 * (n / 65536 % 256) +
    16777216 * (n / 16777216 % 256)) = some n
  congr 1
  omega

theorem readInt32LE_of_drop {b : Bytes} {o n : Nat} {rest : Bytes}
    (hd : b.drop o = u32le n ++ rest) (hn : n < 2147483648) :
    readInt32LE b ((o : Nat) : Int) = some (n : Int) := by
  rw [readInt32LE, readUInt32LE_of_drop hd (by omega)]
  simp [toSigned32, hn]

theorem length_of_drop_entry {b : Bytes} {o : Nat} {mid rest : Bytes}
    (hd : b.drop o = u32le mid.length ++ (mid ++ rest)) :
    b.length = o + 4 + mid.length + rest.length ∧ o ≤ b.length := by
  have hlen := congrArg List.length hd
  rw [List.length_drop, List.length_append, List.length_append] at hlen
  rw [show (u32le mid.length).length = 4 from rfl] at hlen
  omega

theorem jsSub_entry {b : Bytes} {o : Nat} {mid rest : Bytes}
    (hd : b.drop o = u32le mid.length ++ (mid ++ rest)) :
    jsSub b (((o : Nat) : Int) + 4) (((o : Nat) : Int) + 4 + (mid.length : Int)) = mid := by
  obtain ⟨hL, hoL⟩ := length_of_drop_entry hd
  have h1 : jsIdx b.length (((o : Nat) : Int) + 4) = o + 4 := by
    rw [jsIdx, if_neg (by omega)]
    omega
  have h2 : jsIdx b.length (((o : Nat) : Int) + 4 + (mid.length : Int)) =
      o + 4 + mid.length := by
    rw [jsIdx, if_neg (by omega)]
    omega
  rw [jsSub, h1, h2, List.drop_take,
    show o + 4 + mid.length - (o + 4) = mid.length from by omega]
  have hsplit : List.drop (o + 4) b = mid ++ rest := by
    rw [← List.drop_drop 4 o b, hd,
      show (4 : Nat) = (u32le mid.length).length from rfl, List.drop_left]
  rw [hsplit]
  exact List.take_left mid rest

theorem extractFieldsGo_entry_step {b : Bytes} {o : Nat} {mid rest : Bytes}
    (fuel : Nat) (acc : RecordFields)
    (hd : b.drop o = u32le mid.length ++ (mid ++ rest))
    (hlen : mid.length < 2147483648) :
    extractFieldsGo b (fuel + 1) ((o : Nat) : Int) acc =
      (match findEqIdx 61 mid with
      | none => .undef
      | some i =>
        extractFieldsGo b fuel (((o + 4 + mid.length : Nat) : Int))
          (rfInsert acc (mid.take i) (mid.drop (i + 1)))) := by
  obtain ⟨hL, hoL⟩ := length_of_drop_entry hd
  rw [extractFieldsGo_succ b fuel _ acc (by omega), readInt32LE_of_drop hd hlen]
  dsimp only
  rw [jsSub_entry hd,
    show ((o : Nat) : Int) + 4 + (mid.length : Int) = ((o + 4 + mid.length : Nat) : Int)
      from by push_cast; ring]

theorem serializeEntries_cons (e : Bytes) (es : List Bytes) :
    serializeEntries (e :: es) = u32le e.length ++ (e ++ serializeEntries es) := by
  simp [serializeEntries, entryBytes]

theorem serializeFields_cons (k v : Bytes) (fs : List (Bytes × Bytes)) :
    serializeFields ((k, v) :: fs) =
      u32le (k ++ 61 :: v).length ++ ((k ++ 61 :: v) ++ serializeFields fs) := by
  simp [serializeFields, serializeEntries, entryBytes]

theorem drop_of_entry {b : Bytes} {o : Nat} {mid rest : Bytes}
    (hd : b.drop o = u32le mid.length ++ (mid ++ rest)) :
    b.drop (o + 4 + mid.length) = rest := by
  have hlen4 : 4 + mid.length = (u32le mid.length ++ mid).length := by
    simp [u32le]
    omega
  rw [show o + 4 + mid.length = o + (4 + mid.length) from by omega,
    ← List.drop_drop (4 + mid.length) o b, hd, ← List.append_assoc, hlen4,
    List.drop_left]

theorem extractFieldsGo_serialized (fs : List (Bytes × Bytes)) :
    ∀ (b : Bytes) (o fuel : Nat) (acc : RecordFields),
      b.drop o = serializeFields fs →
      fs.length ≤ fuel →
      (∀ p ∈ fs, 61 ∉ p.1 ∧ p.1.length + 1 + p.2.length < 2147483648) →
      extractFieldsGo b fuel ((o : Nat) : Int) acc =
        .ok (fs.foldl (fun a p => rfInsert a p.1 p.2) acc) := by
  induction fs with
  | nil =>
    intro b o fuel acc hd _ _
    rw [serializeFields] at hd
    simp only [List.map_nil, serializeEntries, List.flatten_nil] at hd
    have : b.length ≤ o := List.drop_eq_nil_iff.mp hd
    rw [extractFieldsGo_stop b fuel _ acc (by omega)]
    rfl
  | cons p fs' ih =>
    intro b o fuel acc hd hfuel hp
    obtain ⟨k, v⟩ := p
    obtain ⟨fuel', rfl⟩ : ∃ f, fuel = f + 1 := by
      cases fuel with
      | zero => simp at hfuel
      | succ f => exact ⟨f, rfl⟩
    rw [serializeFields_cons] at hd
    have hk : 61 ∉ k := (hp (k, v) (List.mem_cons_self _ _)).1
    have hkl : k.length + 1 + v.length < 2147483648 :=
      (hp (k, v) (List.mem_cons_self _ _)).2
    have hmidlen : (k ++ 61 :: v).length = k.length + 1 + v.length := by
      simp
      omega
    rw [extractFieldsGo_entry_step fuel' acc hd (by rw [hmidlen]; omega),
      findEqIdx_sep v k hk]
    have htake : (k ++ 61 :: v).take k.length = k := by
      have := List.take_left k (61 :: v)
      simpa using this
    have hdrop : (k ++ 61 :: v).drop (k.length + 1) = v := by
      rw [show k.length + 1 = k.length + 1 from rfl,
        ← List.drop_drop 1 k.length (k ++ 61 :: v), List.drop_left]
      rfl
    dsimp only
    rw [htake, hdrop]
    have hd' : b.drop (o + 4 + (k ++ 61 :: v).length) = serializeFields fs' :=
      drop_of_entry hd
    rw [ih b (o + 4 + (k ++ 61 :: v).length) fuel'
      (rfInsert acc k v) hd' (by simpa using hfuel)
      (fun p hpp => hp p (List.mem_cons_of_mem _ hpp))]
    rfl

theorem extractFieldsGo_serialized_undef (es : List Bytes) :
    ∀ (b : Bytes) (o fuel : Nat) (acc : RecordFields),
      b.drop o = serializeEntries es →
      es.length ≤ fuel →
      (∀ e ∈ es, e.length < 2147483648) →
      (extractFieldsGo b fuel ((o : Nat) : Int) acc = .undef ↔ ∃ e ∈ es, 61 ∉ e) := by
  induction es with
  | nil =>
    intro b o fuel acc hd _ _
    simp only [serializeEntries, List.map_nil, List.flatten_nil] at hd
    have : b.length ≤ o := List.drop_eq_nil_iff.mp hd
    rw [extractFieldsGo_stop b fuel _ acc (by omega)]
    simp
  | cons e es' ih =>
    intro b o fuel acc hd hfuel he
    obtain ⟨fuel', rfl⟩ : ∃ f, fuel = f + 1 := by
      cases fuel with
      | zero => simp at hfuel
      | succ f => exact ⟨f, rfl⟩
    rw [serializeEntries_cons] at hd
    rw [extractFieldsGo_entry_step fuel' acc hd (he e (List.mem_cons_self _ _))]
    cases hf : findEqIdx 61 e with
    | none =>
      simp only [true_iff]
      exact ⟨e, List.mem_cons_self _ _, (findEqIdx_none_iff 61 e).mp hf⟩
    | some i =>
      have hmem : 61 ∈ e := by
        by_contra hnm
        rw [(findEqIdx_none_iff 61 e).mpr hnm] at hf
        exact Option.noConfusion hf
      rw [ih b (o + 4 + e.length) fuel' _
        (drop_of_entry hd) (by simpa using hfuel)
        (fun q hq => he q (List.mem_cons_of_mem _ hq))]
      constructor
      · intro ⟨q, hq, hq61⟩
        exact ⟨q, List.mem_cons_of_mem _ hq, hq61⟩
      · intro ⟨q, hq, hq61⟩
        rcases List.mem_cons.mp hq with rfl | hq'
        · exact absurd hmem hq61
        · exact ⟨q, hq', hq61⟩

theorem length_serializeEntries_ge (es : List Bytes) :
    es.length ≤ (serializeEntries es).length := by
  induction es with
  | nil => simp [serializeEntries]
  | cons e es ih =>
    rw [serializeEntries_cons]
    simp only [List.length_append, List.length_cons]
    have h4 : (u32le e.length).length = 4 := rfl
    omega

theorem length_serializeFields_ge (fs : List (Bytes × Bytes)) :
    fs.length ≤ (serializeFields fs).length := by
  rw [serializeFields]
  have := length_serializeEntries_ge (fs.map fun p => p.1 ++ 61 :: p.2)
  simpa using this

theorem foldl_rfInsert_eq_append (fs : List (Bytes × Bytes)) :
    ∀ acc : RecordFields,
      (∀ p ∈ fs, ∀ q ∈ acc, q.1 ≠ p.1) → (fs.map Prod.fst).Nodup →
      fs.foldl (fun a p => rfInsert a p.1 p.2) acc = acc ++ fs := by
  induction fs with
  | nil =>
    intro acc _ _
    simp
  | cons p fs' ih =>
    intro acc hdisj hnodup
    obtain ⟨k, v⟩ := p
    have hany : acc.any (fun q => q.1 = k) = false := by
      rw [List.any_eq_false]
      intro q hq
      simpa using hdisj (k, v) (List.mem_cons_self _ _) q hq
    have hins : rfInsert acc k v = acc ++ [(k, v)] := by
      rw [rfInsert, hany]
      simp
    rw [List.foldl_cons, hins]
    rw [List.map_cons, List.nodup_cons] at hnodup
    rw [ih (acc ++ [(k, v)]) ?hd hnodup.2]
    · simp
    case hd =>
      intro p hp q hq
      rcases List.mem_append.mp hq with hq | hq
      · exact hdisj p (List.mem_cons_of_mem _ hp) q hq
      · rcases List.mem_singleton.mp hq with rfl
        intro hkp
        exact hnodup.1 (hkp ▸ List.mem_map_of_mem Prod.fst hp)

/-- **C3** (amended): for every fields map with ASCII keys containing no `=`
byte, *whose entries (`name=value`) are each shorter than 2^31 bytes*,
parsing the serialized `len:u32 LE | name '=' value` concatenation returns
exactly that map; and on a serialization of raw entries each shorter than
2^31 bytes, `extractFields` returns the Missing result exactly when some
entry contains no `=` byte.  (The length bound is forced by the source's
*signed* `readInt32LE` length read — see the counterexample.) -/
theorem extractFields_roundtrip (fs : List (Bytes × Bytes)) (es : List Bytes)
    (hascii : ∀ p ∈ fs, 61 ∉ p.1 ∧ ∀ bt ∈ p.1, bt < 128)
    (hsize : ∀ p ∈ fs, p.1.length + 1 + p.2.length < 2147483648)
    (hnodup : (fs.map Prod.fst).Nodup)
    (hes : ∀ e ∈ es, e.length < 2147483648) :
    extractFields (serializeFields fs) = .ok fs ∧
    (extractFields (serializeEntries es) = .undef ↔ ∃ e ∈ es, 61 ∉ e) := by
  constructor
  · rw [extractFields]
    have h := extractFieldsGo_serialized fs (serializeFields fs) 0
      (serializeFields fs).length [] (by simp) (length_serializeFields_ge fs)
      (fun p hp => ⟨(hascii p hp).1, hsize p hp⟩)
    rw [show (((0 : Nat)) : Int) = (0 : Int) from rfl] at h
    rw [h, foldl_rfInsert_eq_append fs [] (by simp) hnodup]
    rfl
  · rw [extractFields]
    have h := extractFieldsGo_serialized_undef es (serializeEntries es) 0
      (serializeEntries es).length [] (by simp) (length_serializeEntries_ge es) hes
    rw [show (((0 : Nat)) : Int) = (0 : Int) from rfl] at h
    exact h

/-- Witness for C3 at the spec's fields example `{a: "hello", b: "xy "}`,
plus the Missing direction on a one-entry blob without `=`. -/
theorem extractFields_roundtrip_witness :
    extractFields (serializeFields
        [(asciiBytes "a", asciiBytes "hello"), (asciiBytes "b", asciiBytes "xy ")]) =
      .ok [(asciiBytes "a", asciiBytes "hello"), (asciiBytes "b", asciiBytes "xy ")] ∧
    extractFields (serializeEntries [[120, 121]]) = .undef :=
  ⟨(extractFields_roundtrip
      [(asciiBytes "a", asciiBytes "hello"), (asciiBytes "b", asciiBytes "xy ")]
      [[120, 121]] (by decide) (by decide) (by decide) (by decide)).1,
    (extractFields_roundtrip
      [(asciiBytes "a", asciiBytes "hello"), (asciiBytes "b", asciiBytes "xy ")]
      [[120, 121]] (by decide) (by decide) (by decide) (by decide)).2.mpr
      ⟨[120, 121], by decide, by decide⟩⟩

/-- A fields map whose single entry `k=v` is exactly `2^31` bytes long:
key `k` (0x6b), value of `2^31 - 2` zero bytes. -/
def c3HugeKey : Bytes := [107]

def c3HugeVal : Bytes := List.replicate 2147483646 0

def c3HugeFields : List (Bytes × Bytes) := [(c3HugeKey, c3HugeVal)]

/-- A raw `2^31`-byte entry that *does* contain `=` (0x3d, at index 4) but
whose first four bytes are zero. -/
def c3HugeEntry : Bytes := 0 :: 0 :: 0 :: 0 :: 61 :: List.replicate 2147483643 0

theorem readInt32LE_neg {b : Bytes} {off : Int} (h : off < 0) :
    readInt32LE b off = none := by
  rw [readInt32LE, readUInt32LE, if_pos h]
  rfl

theorem extractFieldsGo_step_some {b : Bytes} {offset : Int} {fieldLen : Int}
    {fd : Bytes} {i : Nat} (fuel : Nat) (acc : RecordFields)
    (h : offset < (b.length : Int))
    (hr : readInt32LE b offset = some fieldLen)
    (hfd : jsSub b (offset + 4) (offset + 4 + fieldLen) = fd)
    (hf : findEqIdx 61 fd = some i) :
    extractFieldsGo b (fuel + 1) offset acc =
      extractFieldsGo b fuel (offset + 4 + fieldLen)
        (rfInsert acc (fd.take i) (fd.drop (i + 1))) := by
  rw [extractFieldsGo_succ b fuel offset acc h, hr]
  dsimp only
  rw [hfd, hf]

theorem extractFieldsGo_step_undef {b : Bytes} {offset : Int} {fieldLen : Int}
    {fd : Bytes} (fuel : Nat) (acc : RecordFields)
    (h : offset < (b.length : Int))
    (hr : readInt32LE b offset = some fieldLen)
    (hfd : jsSub b (offset + 4) (offset + 4 + fieldLen) = fd)
    (hf : findEqIdx 61 fd = none) :
    extractFieldsGo b (fuel + 1) offset acc = .undef := by
  rw [extractFieldsGo_succ b fuel offset acc h, hr]
  dsimp only
  rw [hfd, hf]

theorem extractFieldsGo_step_thrown {b : Bytes} {offset : Int}
    (fuel : Nat) (acc : RecordFields)
    (h : offset < (b.length : Int))
    (hr : readInt32LE b offset = none) :
    extractFieldsGo b (fuel + 1) offset acc = .thrown := by
  rw [extractFieldsGo_succ b fuel offset acc h, hr]

/-- **C3** (counterexample to the claim as stated, which has no size bound):
the source reads the entry length with the *signed* `readInt32LE`, so a
`2^31`-byte entry's length prefix is read back as `-2^31`.  For the
`=`-separated fields map `{k: 0^(2^31-2)}` the parse throws a RangeError
instead of returning the map, and for a raw `2^31`-byte entry that does
contain `=` at index 4 the parse reports the Missing result, refuting both
directions of the claimed equivalence. -/
theorem extractFields_roundtrip_counterexample :
    (61 ∉ c3HugeKey ∧ ∀ bt ∈ c3HugeKey, bt < 128) ∧
    extractFields (serializeFields c3HugeFields) = .thrown ∧
    61 ∈ c3HugeEntry ∧
    extractFields (serializeEntries [c3HugeEntry]) = .undef := by
  refine ⟨by decide, ?_, ?_, ?_⟩
  · have hlenE : (c3HugeKey ++ 61 :: c3HugeVal).length = 2147483648 := by
      rw [c3HugeKey, c3HugeVal, List.length_append, List.length_cons,
        List.length_cons, List.length_replicate, List.length_nil]
    have hB : serializeFields c3HugeFields =
        u32le 2147483648 ++ (c3HugeKey ++ 61 :: c3HugeVal) := by
      rw [c3HugeFields, serializeFields_cons, hlenE,
        show serializeFields [] = [] from rfl, List.append_nil]
    have hbl : (serializeFields c3HugeFields).length = 2147483652 := by
      rw [hB, List.length_append, hlenE,
        show (u32le 2147483648).length = 4 from rfl]
    have hr : readInt32LE (serializeFields c3HugeFields) 0 = some (-2147483648) := by
      have hd : (serializeFields c3HugeFields).drop 0 =
          u32le 2147483648 ++ (c3HugeKey ++ 61 :: c3HugeVal) := by
        rw [List.drop_zero, hB]
      have h0 := readUInt32LE_of_drop hd (by norm_num)
      rw [show (((0 : Nat)) : Int) = (0 : Int) from rfl] at h0
      rw [readInt32LE, h0]
      rfl
    have he1 : (0 : Int) + 4 + -2147483648 = -2147483644 := by norm_num
    have hfd : jsSub (serializeFields c3HugeFields) (0 + 4) (0 + 4 + -2147483648) =
        [107, 61, 0, 0] := by
      rw [jsSub, hbl, he1,
        show jsIdx 2147483652 (-2147483644) = 8 from by decide,
        show jsIdx 2147483652 ((0 : Int) + 4) = 4 from by decide, hB,
        show u32le 2147483648 = [0, 0, 0, 128] from by decide]
      rfl
    rw [extractFields, hbl, show (2147483652 : Nat) = 2147483651 + 1 from rfl,
      extractFieldsGo_step_some 2147483651 [] (by rw [hbl]; decide) hr hfd
        (show findEqIdx 61 [107, 61, 0, 0] = some 1 from rfl),
      show (2147483651 : Nat) = 2147483650 + 1 from rfl,
      extractFieldsGo_step_thrown 2147483650 _ (by rw [hbl]; decide)
        (readInt32LE_neg (show (0 : Int) + 4 + -2147483648 < 0 from by norm_num))]
  · rw [c3HugeEntry]
    exact List.mem_cons_of_mem _ (List.mem_cons_of_mem _ (List.mem_cons_of_mem _
      (List.mem_cons_of_mem _ (List.mem_cons_self _ _))))
  · have hlenE : c3HugeEntry.length = 2147483648 := by
      rw [c3HugeEntry, List.length_cons, List.length_cons, List.length_cons,
        List.length_cons, List.length_cons, List.length_replicate]
    have hB : serializeEntries [c3HugeEntry] = u32le 2147483648 ++ c3HugeEntry := by
      rw [serializeEntries_cons, hlenE,
        show serializeEntries [] = [] from rfl, List.append_nil]
    have hbl : (serializeEntries [c3HugeEntry]).length = 2147483652 := by
      rw [hB, List.length_append, hlenE,
        show (u32le 2147483648).length = 4 from rfl]
    have hr : readInt32LE (serializeEntries [c3HugeEntry]) 0 = some (-2147483648) := by
      have hd : (serializeEntries [c3HugeEntry]).drop 0 =
          u32le 2147483648 ++ c3HugeEntry := by
        rw [List.drop_zero, hB]
      have h0 := readUInt32LE_of_drop hd (by norm_num)
      rw [show (((0 : Nat)) : Int) = (0 : Int) from rfl] at h0
      rw [readInt32LE, h0]
      rfl
    have he1 : (0 : Int) + 4 + -2147483648 = -2147483644 := by norm_num
    have hfd : jsSub (serializeEntries [c3HugeEntry]) (0 + 4) (0 + 4 + -2147483648) =
        [0, 0, 0, 0] := by
      rw [jsSub, hbl, he1,
        show jsIdx 2147483652 (-2147483644) = 8 from by decide,
        show jsIdx 2147483652 ((0 : Int) + 4) = 4 from by decide, hB,
        show u32le 2147483648 = [0, 0, 0, 128] from by decide]
      rfl
    rw [extractFields, hbl, show (2147483652 : Nat) = 2147483651 + 1 from rfl,
      extractFieldsGo_step_undef 2147483651 [] (by rw [hbl]; decide) hr hfd
        (show findEqIdx 61 [0, 0, 0, 0] = none from rfl)]

/-! ## Claim C7 — header validation -/

/-- **C7** (counterexample to the claim as stated): the claim reads
`header_length` as a `u32`; the source uses the *signed* `readInt32LE`.  On
a buffer whose length field is `FF FF FF FF`, the claim requires
`HeaderTooLarge` (`13 + 8 + 4294967295` exceeds the 21-byte buffer), but the
source treats the length as `-1` and validates the header. -/
theorem verifyHeader_signed_length_counterexample :
    verifyHeader (FORMAT_VERSION_BYTES ++ [255, 255, 255, 255, 0, 0, 0, 0]) = .valid ∧
    readUInt32LE (FORMAT_VERSION_BYTES ++ [255, 255, 255, 255, 0, 0, 0, 0])
      ((FORMAT_VERSION_OFFSET : Nat) : Int) = some 4294967295 ∧
    (FORMAT_VERSION_BYTES ++ [255, 255, 255, 255, 0, 0, 0, 0]).length = 21 ∧
    21 + 4294967295 > 21 ∧
    HeaderCheck.valid ≠ HeaderCheck.headerTooLarge := by
  decide

/-- **C7** (amended): validation of the header buffer fails with
`InvalidMagic` exactly when bytes `[0, 13)` differ from `"#ROSBAG V2.0\n"`;
then with `Truncated` exactly when the buffer is shorter than `13 + 8`
bytes; then, with `header_length` read as a *signed* 32-bit integer at
offset 13, fails with `HeaderTooLarge` exactly when
`13 + 8 + header_length` exceeds the buffer length, and succeeds otherwise
(in particular a negative `header_length` validates). -/
theorem verifyHeader_spec (b : Bytes) :
    (verifyHeader b = .invalidMagic ↔
      jsSub b 0 ((FORMAT_VERSION_OFFSET : Nat) : Int) ≠ FORMAT_VERSION_BYTES) ∧
    (jsSub b 0 ((FORMAT_VERSION_OFFSET : Nat) : Int) = FORMAT_VERSION_BYTES →
      (verifyHeader b = .truncated ↔ b.length < 21)) ∧
    (jsSub b 0 ((FORMAT_VERSION_OFFSET : Nat) : Int) = FORMAT_VERSION_BYTES →
      21 ≤ b.length →
      ∀ h : Int, readInt32LE b ((FORMAT_VERSION_OFFSET : Nat) : Int) = some h →
        ((verifyHeader b = .headerTooLarge ↔ (b.length : Int) < 21 + h) ∧
         (verifyHeader b = .valid ↔ ¬ (b.length : Int) < 21 + h))) := by
  by_cases hm : jsSub b 0 ((FORMAT_VERSION_OFFSET : Nat) : Int) = FORMAT_VERSION_BYTES
  · by_cases hl : b.length < 21
    · refine ⟨?_, fun _ => ?_, fun _ hge => absurd hl (by omega)⟩
      · rw [verifyHeader, if_neg (by simpa using hm), if_pos (by simpa using hl)]
        simp [hm]
      · rw [verifyHeader, if_neg (by simpa using hm), if_pos (by simpa using hl)]
        simp [hl]
    · have hsome : ∃ n, readUInt32LE b (((FORMAT_VERSION_OFFSET : Nat) : Int)) = some n :=
        readUInt32LE_isSome (b := b) (o := 13) (by omega)
      obtain ⟨n, hn⟩ := hsome
      have hi : readInt32LE b (((FORMAT_VERSION_OFFSET : Nat) : Int)) = some (toSigned32 n) := by
        rw [readInt32LE, hn]
        rfl
      have hv : verifyHeader b =
          (if (b.length : Int) <
              ((FORMAT_VERSION_OFFSET : Nat) : Int) + ((HEADER_MIN_LEN : Nat) : Int) +
                toSigned32 n
            then .headerTooLarge else .valid) := by
        rw [verifyHeader, if_neg (by simpa using hm), if_neg (by simpa using hl)]
        rw [hi]
      refine ⟨?_, fun _ => ?_, fun _ _ h hh => ?_⟩
      · rw [hv]
        constructor
        · intro he
          exact absurd he (by split <;> simp)
        · intro hc
          exact absurd hm hc
      · rw [hv]
        constructor
        · intro he
          exact absurd he (by split <;> simp [hl])
        · intro hc
          exact absurd hc hl
      · have hhn : h = toSigned32 n := by
          rw [hi] at hh
          exact (Option.some_inj.mp hh).symm
        subst hhn
        rw [hv]
        constructor
        · constructor
          · intro he
            by_contra hc
            rw [if_neg (by simp only [FORMAT_VERSION_OFFSET, HEADER_MIN_LEN]; push_cast; omega)] at he
            exact HeaderCheck.noConfusion he
          · intro hc
            rw [if_pos (by simp only [FORMAT_VERSION_OFFSET, HEADER_MIN_LEN]; push_cast; omega)]
        · constructor
          · intro he
            by_contra hc
            rw [if_pos (by simp only [FORMAT_VERSION_OFFSET, HEADER_MIN_LEN]; push_cast; omega)] at he
            exact HeaderCheck.noConfusion he
          · intro hc
            rw [if_neg (by simp only [FORMAT_VERSION_OFFSET, HEADER_MIN_LEN]; push_cast; omega)]
  · have hv : verifyHeader b = .invalidMagic := by
      rw [verifyHeader, if_pos (by simpa using hm)]
    refine ⟨by simp [hv, hm], fun hc => absurd hc hm, fun hc => absurd hc hm⟩

/-- Witness for C7: a minimal valid header buffer (magic, zero header
length, zero padding) validates. -/
theorem verifyHeader_spec_witness :
    verifyHeader (FORMAT_VERSION_BYTES ++ [0, 0, 0, 0, 0, 0, 0, 0]) = .valid :=
  ((verifyHeader_spec (FORMAT_VERSION_BYTES ++ [0, 0, 0, 0, 0, 0, 0, 0])).2.2
    (by decide) (by decide) 0 (by decide)).2.mpr (by decide)

/-! ## Claim C2 — chunk-info post-processing -/

theorem mapWithIdxGo_length {α β : Type} (f : Nat → α → β) :
    ∀ (i : Nat) (l : List α), (mapWithIdxGo f i l).length = l.length
  | _, [] => rfl
  | i, _ :: as => by
    simp [mapWithIdxGo, mapWithIdxGo_length f (i + 1) as]

theorem mapWithIdxGo_getElem? {α β : Type} (f : Nat → α → β) :
    ∀ (i : Nat) (l : List α) (j : Nat),
      (mapWithIdxGo f i l)[j]? = (l[j]?).map (f (i + j))
  | _, [], j => by simp [mapWithIdxGo]
  | i, a :: as, 0 => by simp [mapWithIdxGo]
  | i, a :: as, j + 1 => by
    have := mapWithIdxGo_getElem? f (i + 1) as j
    simpa [mapWithIdxGo, Nat.add_assoc, Nat.add_comm 1 j] using this

theorem mapWithIdx_getElem? {α β : Type} (f : Nat → α → β) (l : List α) (j : Nat) :
    (mapWithIdx f l)[j]? = (l[j]?).map (f j) := by
  rw [mapWithIdx, mapWithIdxGo_getElem?]
  simp

theorem mapWithIdx_length {α β : Type} (f : Nat → α → β) (l : List α) :
    (mapWithIdx f l).length = l.length := mapWithIdxGo_length f 0 l

theorem mem_mapWithIdxGo {α β : Type} (f : Nat → α → β) :
    ∀ (i : Nat) (l : List α) (y : β), y ∈ mapWithIdxGo f i l → ∃ j b, b ∈ l ∧ y = f j b
  | _, [], _, h => by simp [mapWithIdxGo] at h
  | i, a :: as, y, h => by
    rcases h with _ | ⟨_, hmem⟩
    · exact ⟨i, a, List.mem_cons_self a as, rfl⟩
    · obtain ⟨j, b, hb, rfl⟩ := mem_mapWithIdxGo f (i + 1) as y hmem
      exact ⟨j, b, List.mem_cons_of_mem a hb, rfl⟩

theorem pairwise_mapWithIdxGo {α β : Type} {R : α → α → Prop} {S : β → β → Prop}
    (f : Nat → α → β) (hf : ∀ i a j b, R a b → S (f i a) (f j b)) :
    ∀ (i : Nat) (l : List α), l.Pairwise R → (mapWithIdxGo f i l).Pairwise S
  | _, [], _ => .nil
  | i, a :: as, h => by
    rcases h with _ | ⟨hhead, htail⟩
    refine List.Pairwise.cons ?_ (pairwise_mapWithIdxGo f hf (i + 1) as htail)
    intro y hy
    obtain ⟨j, b, hb, rfl⟩ := mem_mapWithIdxGo f (i + 1) as y hy
    exact hf i a j b (hhead b hb)

theorem chunkLE_set_next {a b : ChunkInfo} {x y : Nat}
    (h : chunkLE a b) :
    chunkLE { a with nextChunkPosition := x } { b with nextChunkPosition := y } := h

theorem chunkLE_set_idx {a b : ChunkInfo} {i j : Nat}
    (h : chunkLE a b) : chunkLE { a with idx := i } { b with idx := j } := h

/-- **C2** (counterexample to the claim as stated): the source assigns the
`nextChunkPosition` links over the *encountered* order and only then sorts
by `startTime`.  With two chunk-info records encountered out of time order —
`B` (start 10, position 100) before `A` (start 5, position 200), file length
300 — the emitted array is `[A, B]` but `A`'s `nextChunkPosition` is `300`
(the file length, `B`'s pre-sort link), not `B`'s `chunkPosition = 100` as
the claim requires. -/
theorem postProcessChunks_linkorder_counterexample :
    postProcessChunks 300
        [⟨none, 100, ⟨10, 0⟩, ⟨11, 0⟩, 0, [], 0, 0⟩,
         ⟨none, 200, ⟨5, 0⟩, ⟨6, 0⟩, 0, [], 0, 0⟩] =
      [⟨none, 200, ⟨5, 0⟩, ⟨6, 0⟩, 0, [], 0, 300⟩,
       ⟨none, 100, ⟨10, 0⟩, ⟨11, 0⟩, 0, [], 1, 200⟩] ∧
    (300 : Nat) ≠ 100 := by
  decide

/-- **C2** (amended): after a load with at least one chunk, the emitted
`chunksInfo` is stable-sorted by `startTime` and `idx = i` throughout; the
`nextChunkPosition` links are assigned over the *encountered* (pre-sort)
order, so when the records are already encountered in time order (and chunk
positions are nonzero, as the magic bytes at offset 0 guarantee), every
`nextChunkPosition` equals the next emitted chunk's `chunkPosition`, and the
last equals the file length. -/
theorem postProcessChunks_spec (fileSize : Nat) (cs : List ChunkInfo) (hne : cs ≠ []) :
    List.Pairwise chunkLE (postProcessChunks fileSize cs) ∧
    (∀ (i : Nat) (c : ChunkInfo),
      (postProcessChunks fileSize cs)[i]? = some c → c.idx = i) ∧
    (List.Pairwise chunkLE cs → (∀ c ∈ cs, c.chunkPosition ≠ 0) →
      (∀ (i : Nat) (a b : ChunkInfo), (postProcessChunks fileSize cs)[i]? = some a →
        (postProcessChunks fileSize cs)[i + 1]? = some b →
        a.nextChunkPosition = b.chunkPosition) ∧
      (∀ a : ChunkInfo, (postProcessChunks fileSize cs)[cs.length - 1]? = some a →
        a.nextChunkPosition = fileSize)) := by
  classical
  set g : Nat → ChunkInfo → ChunkInfo := fun i c =>
    { c with
      nextChunkPosition :=
        match cs[i + 1]? with
        | some c2 => if c2.chunkPosition = 0 then fileSize else c2.chunkPosition
        | none => fileSize } with hg
  have hout : postProcessChunks fileSize cs =
      mapWithIdx (fun i c => { c with idx := i })
        ((mapWithIdx g cs).insertionSort chunkLE) := rfl
  refine ⟨?_, ?_, ?_⟩
  · rw [hout, mapWithIdx]
    exact pairwise_mapWithIdxGo (fun i c => { c with idx := i })
      (fun i a j b h => chunkLE_set_idx h) 0 _
      (List.sorted_insertionSort chunkLE _)
  · intro i c hc
    rw [hout, mapWithIdx_getElem?] at hc
    cases hs : ((mapWithIdx g cs).insertionSort chunkLE)[i]? with
    | none =>
      rw [hs] at hc
      exact Option.noConfusion hc
    | some d =>
      rw [hs] at hc
      simp only [Option.map_some'] at hc
      have hc' := Option.some_inj.mp hc
      subst hc'
      rfl
  · intro hsorted hpos
    have hlinked : List.Pairwise chunkLE (mapWithIdx g cs) := by
      rw [mapWithIdx]
      exact pairwise_mapWithIdxGo g (fun i a j b h => chunkLE_set_next h) 0 cs hsorted
    have hsort_eq : (mapWithIdx g cs).insertionSort chunkLE = mapWithIdx g cs :=
      List.Sorted.insertionSort_eq hlinked
    have hget : ∀ i, (postProcessChunks fileSize cs)[i]? =
        (cs[i]?).map (fun c => { g i c with idx := i }) := by
      intro i
      rw [hout, mapWithIdx_getElem?, hsort_eq, mapWithIdx_getElem?]
      cases cs[i]? <;> rfl
    constructor
    · intro i a b ha hb
      rw [hget] at ha hb
      cases hci : cs[i]? with
      | none =>
        rw [hci] at ha
        exact Option.noConfusion ha
      | some ci =>
        cases hci1 : cs[i + 1]? with
        | none =>
          rw [hci1] at hb
          exact Option.noConfusion hb
        | some ci1 =>
          rw [hci] at ha
          rw [hci1] at hb
          simp only [Option.map_some'] at ha hb
          have ha' := Option.some_inj.mp ha
          have hb' := Option.some_inj.mp hb
          subst ha'
          subst hb'
          simp only [hg, hci1]
          rw [if_neg (hpos ci1 (List.getElem?_mem hci1))]
    · intro a ha
      rw [hget] at ha
      cases hcl : cs[cs.length - 1]? with
      | none =>
        rw [hcl] at ha
        exact Option.noConfusion ha
      | some cl =>
        rw [hcl] at ha
        simp only [Option.map_some'] at ha
        have hnone : cs[cs.length - 1 + 1]? = none := by
          apply List.getElem?_eq_none
          have : cs.length ≠ 0 := fun h => hne (List.eq_nil_of_length_eq_zero h)
          omega
        have ha' := Option.some_inj.mp ha
        subst ha'
        simp only [hg, hnone]

/-- Witness for C2 at a concrete in-order two-chunk file. -/
theorem postProcessChunks_spec_witness :
    (postProcessChunks 300
        [⟨none, 100, ⟨5, 0⟩, ⟨6, 0⟩, 0, [], 0, 0⟩,
         ⟨none, 200, ⟨10, 0⟩, ⟨11, 0⟩, 0, [], 0, 0⟩])[1]? =
      some ⟨none, 200, ⟨10, 0⟩, ⟨11, 0⟩, 0, [], 1, 300⟩ ∧
    (⟨none, 200, ⟨10, 0⟩, ⟨11, 0⟩, 0, [], 1, 300⟩ : ChunkInfo).idx = 1 :=
  ⟨by decide,
    (postProcessChunks_spec 300
      [⟨none, 100, ⟨5, 0⟩, ⟨6, 0⟩, 0, [], 0, 0⟩,
       ⟨none, 200, ⟨10, 0⟩, ⟨11, 0⟩, 0, [], 0, 0⟩] (by decide)).2.1 1 _ (by decide)⟩

/-! ## Claim C8 — the loop branch of a playback tick -/

/-- **C8**: on a tick whose computed `new_bag_time` reaches or passes
`metadata.end_time` with `loop = true`, the handler publishes
`current_bag_time = start_time`, re-anchors the clock (`bag_anchor` to the
start, `wall_start` to now, the prefetch bookkeeping to the start's
seconds), triggers a prefetch at `start_time`, stays playing, and emits no
message batch: the trailing messages past `end_time` are not emitted on that
tick. -/
theorem playbackTick_loop_reset (opts : RosbagOptions) (meta : BagMetadataTimes)
    (getMessages : Time → Time → List RosbagMessage) (anchor : Time)
    (wallStart now lastPrefetchSec : ℚ)
    (hloop : opts.loop = true)
    (hend : isLessThan
        (addSecToTime anchor (qMul (qDivInt (qSub now wallStart) 1000) opts.playbackSpeed))
        meta.endTime = false) :
    playbackTick opts meta getMessages anchor wallStart now lastPrefetchSec =
      { publishedTime := meta.startTime
        emittedBatch := none
        prefetchAt := some meta.startTime
        newAnchor := meta.startTime
        newWallStart := now
        newLastPrefetchSec := timeSecQ meta.startTime
        stillPlaying := true } := by
  simp [playbackTick, hend, hloop]

/-- Witness for C8: a tick two wall seconds past an anchor at the start of a
one-second bag, at speed 1 with `loop = true`. -/
theorem playbackTick_loop_reset_witness :
    playbackTick ⟨10, 1, true⟩ ⟨⟨0, 0⟩, ⟨1, 0⟩⟩ (fun _ _ => []) ⟨0, 0⟩ 0 2000 0 =
      { publishedTime := ⟨0, 0⟩
        emittedBatch := none
        prefetchAt := some ⟨0, 0⟩
        newAnchor := ⟨0, 0⟩
        newWallStart := 2000
        newLastPrefetchSec := timeSecQ ⟨0, 0⟩
        stillPlaying := true } :=
  playbackTick_loop_reset ⟨10, 1, true⟩ ⟨⟨0, 0⟩, ⟨1, 0⟩⟩ (fun _ _ => []) ⟨0, 0⟩ 0 2000 0
    rfl (by decide)

/-! ## Claim C5 — chunk decode ordering -/

theorem decodeOne_some_time {conns : List (Nat × Connection)} {decomp : Bytes}
    {dataOffset : Int} {fuel : Nat} {p : IndexDataMsg}
    {schemas schemas' : List (String × MsgSchema)} {readers readers' : MRState}
    {m : RosbagMessage}
    (h : decodeOne conns decomp dataOffset fuel p schemas readers =
      .ok (some m, schemas', readers')) :
    headerTimeOf decomp dataOffset p = some m.time := by
  rw [decodeOne] at h
  cases hsr : shallowRecordRead (jsSubFrom decomp (p.msgDataOffset : Nat)) dataOffset with
  | undef => rw [hsr] at h; simp at h
  | thrown => rw [hsr] at h; simp at h
  | ok msgRecord =>
    rw [hsr] at h
    dsimp only at h
    cases hconn : rfGet msgRecord.recordHeaderFields (asciiBytes "conn") with
    | none => rw [hconn] at h; simp at h
    | some connB =>
      rw [hconn] at h
      dsimp only at h
      cases hcn : readUInt32LE connB 0 with
      | none => rw [hcn] at h; simp at h
      | some conn =>
        rw [hcn] at h
        dsimp only at h
        cases hmg : mapGet conns conn with
        | none => rw [hmg] at h; simp at h
        | some connection =>
          rw [hmg] at h
          dsimp only at h
          cases htb : rfGet msgRecord.recordHeaderFields (asciiBytes "time") with
          | none => rw [htb] at h; simp at h
          | some timeB =>
            rw [htb] at h
            dsimp only at h
            cases het : extractTime timeB 0 with
            | undef => rw [het] at h; simp at h
            | thrown => rw [het] at h; simp at h
            | ok time =>
              rw [het] at h
              dsimp only at h
              cases hsc : (match mapGet schemas connection.messageType with
                | some s => some (s, schemas)
                | none =>
                  (parseMsgDefinition connection.messageDefinition).map
                    fun s => (s, mapSet schemas connection.messageType s)) with
              | none => rw [hsc] at h; simp at h
              | some pr =>
                obtain ⟨schema, schemas1⟩ := pr
                rw [hsc] at h
                dsimp only at h
                cases hrm : readMsg fuel readers connection.messageType schema
                    msgRecord.recordDataBuffer with
                | mk readers1 parsedO =>
                  rw [hrm] at h
                  cases parsedO with
                  | none => simp at h
                  | some parsed =>
                    dsimp only at h
                    simp only [JSRes.ok.injEq, Prod.mk.injEq, Option.some.injEq] at h
                    obtain ⟨hm, -, -⟩ := h
                    rw [headerTimeOf, hsr]
                    dsimp only
                    rw [htb]
                    dsimp only
                    rw [het]
                    subst hm
                    rfl

theorem decodeLoop_sorted_go (conns : List (Nat × Connection)) (decomp : Bytes)
    (dataOffset : Int) (fuel : Nat) :
    ∀ (ps : List IndexDataMsg) (schemas : List (String × MsgSchema)) (readers : MRState)
      (acc msgs : List RosbagMessage) (schemas' : List (String × MsgSchema))
      (readers' : MRState),
      ps.Pairwise ptrLE →
      (∀ p ∈ ps, headerTimeOf decomp dataOffset p = none ∨
        headerTimeOf decomp dataOffset p = some p.recievedTime) →
      acc.Pairwise msgLE →
      (∀ m ∈ acc, ∀ p ∈ ps, timeLE m.time p.recievedTime) →
      decodeLoop conns decomp dataOffset fuel ps schemas readers acc =
        .ok (msgs, schemas', readers') →
      msgs.Pairwise msgLE := by
  intro ps
  induction ps with
  | nil =>
    intro schemas readers acc msgs s' r' _ _ hacc _ h
    rw [show decodeLoop conns decomp dataOffset fuel [] schemas readers acc =
      .ok (acc, schemas, readers) from rfl] at h
    simp only [JSRes.ok.injEq, Prod.mk.injEq] at h
    obtain ⟨rfl, -, -⟩ := h
    exact hacc
  | cons p ps ih =>
    intro schemas readers acc msgs s' r' hpw hwf hacc hbound h
    rw [decodeLoop] at h
    cases hdo : decodeOne conns decomp dataOffset fuel p schemas readers with
    | undef => rw [hdo] at h; simp at h
    | thrown => rw [hdo] at h; simp at h
    | ok triple =>
      obtain ⟨mo, schemas1, readers1⟩ := triple
      rw [hdo] at h
      cases mo with
      | none =>
        dsimp only at h
        exact ih schemas1 readers1 acc msgs s' r' hpw.of_cons
          (fun q hq => hwf q (List.mem_cons_of_mem _ hq)) hacc
          (fun m hm q hq => hbound m hm q (List.mem_cons_of_mem _ hq)) h
      | some m =>
        dsimp only at h
        have htime : headerTimeOf decomp dataOffset p = some m.time :=
          decodeOne_some_time hdo
        have hmt : m.time = p.recievedTime := by
          rcases hwf p (List.mem_cons_self _ _) with hn | hs
          · rw [hn] at htime
            exact Option.noConfusion htime
          · rw [hs] at htime
            exact (Option.some_inj.mp htime).symm
        have hpair : (acc ++ [m]).Pairwise msgLE := by
          rw [List.pairwise_append]
          refine ⟨hacc, by simp, ?_⟩
          intro a ha b hb
          rcases List.mem_singleton.mp hb with rfl
          show timeLE a.time b.time
          rw [hmt]
          exact hbound a ha p (List.mem_cons_self _ _)
        have hbound' : ∀ m' ∈ acc ++ [m], ∀ q ∈ ps, timeLE m'.time q.recievedTime := by
          intro m' hm' q hq
          rcases List.mem_append.mp hm' with hm' | hm'
          · exact hbound m' hm' q (List.mem_cons_of_mem _ hq)
          · rcases List.mem_singleton.mp hm' with rfl
            rw [hmt]
            exact (List.pairwise_cons.mp hpw).1 q hq
        exact ih schemas1 readers1 (acc ++ [m]) msgs s' r' hpw.of_cons
          (fun q hq => hwf q (List.mem_cons_of_mem _ hq)) hpair hbound' h

theorem processChunkBuffer_eq_decodeLoop (lz4 : Bytes → Nat → Option Bytes)
    (conns : List (Nat × Connection)) (schemas : List (String × MsgSchema))
    (readers : MRState) (fuel : Nat) (buffer : Bytes) (chunkInfo : ChunkInfo)
    {decomp : Bytes} {dataOff : Int} {ptrs : List IndexDataMsg}
    (hstage : chunkDecompAndPointers lz4 buffer chunkInfo = some (decomp, dataOff, ptrs)) :
    processChunkBuffer lz4 conns schemas readers fuel buffer chunkInfo =
      decodeLoop conns decomp dataOff fuel (ptrs.insertionSort ptrLE)
        schemas readers [] := by
  rw [chunkDecompAndPointers] at hstage
  rw [processChunkBuffer]
  cases hsr : shallowRecordRead buffer (chunkInfo.chunkPosition : Nat) with
  | undef => rw [hsr] at hstage; simp at hstage
  | thrown => rw [hsr] at hstage; simp at hstage
  | ok chunk =>
    rw [hsr] at hstage
    dsimp only at hstage ⊢
    cases hcomp : rfGet chunk.recordHeaderFields (asciiBytes "compression") with
    | none => rw [hcomp] at hstage; simp at hstage
    | some compressionB =>
      rw [hcomp] at hstage
      dsimp only at hstage ⊢
      cases hsize : rfGet chunk.recordHeaderFields (asciiBytes "size") with
      | none => rw [hsize] at hstage; simp at hstage
      | some sizeB =>
        rw [hsize] at hstage
        dsimp only at hstage ⊢
        cases hcs : readUInt32LE sizeB 0 with
        | none => rw [hcs] at hstage; simp at hstage
        | some chunkSize =>
          rw [hcs] at hstage
          dsimp only at hstage ⊢
          cases hdec : recordDecompression lz4 (asciiToString compressionB)
              chunk.recordDataBuffer chunkSize with
          | undef => rw [hdec] at hstage; simp at hstage
          | thrown => rw [hdec] at hstage; simp at hstage
          | ok decomp0 =>
            rw [hdec] at hstage
            dsimp only at hstage ⊢
            cases hidx : retrieveRecordsFromBuffer (jsSubFrom buffer chunk.recordLength)
                chunkInfo.count (chunkInfo.chunkPosition + chunk.recordLength)
                parseIndexDataRecord with
            | undef => rw [hidx] at hstage; simp at hstage
            | thrown => rw [hidx] at hstage; simp at hstage
            | ok indexedDataList =>
              rw [hidx] at hstage
              dsimp only at hstage ⊢
              simp only [Option.some.injEq, Prod.mk.injEq] at hstage
              obtain ⟨rfl, rfl, rfl⟩ := hstage
              rfl

/-- **C5** (amended): the chunk pipeline sorts the flattened per-connection
message pointers by `recievedTime` (stable comparator = `compareTime`) and
decodes them in that order, so *when every pointer's record-header `time`
agrees with its index `recievedTime`* (as in a well-formed bag), the decoded
message list handed to the cache is sorted ascending by `time` under
`compareTime`.  Without that agreement the claim is false — the sort key is
the index record's received time, the emitted field is the header time (see
the counterexample). -/
theorem processChunkBuffer_sorted (lz4 : Bytes → Nat → Option Bytes)
    (conns : List (Nat × Connection)) (schemas : List (String × MsgSchema))
    (readers : MRState) (fuel : Nat) (buffer : Bytes) (chunkInfo : ChunkInfo)
    (decomp : Bytes) (dataOff : Int) (ptrs : List IndexDataMsg)
    (msgs : List RosbagMessage) (schemas' : List (String × MsgSchema))
    (readers' : MRState)
    (hstage : chunkDecompAndPointers lz4 buffer chunkInfo = some (decomp, dataOff, ptrs))
    (hwf : ∀ p ∈ ptrs, headerTimeOf decomp dataOff p = none ∨
        headerTimeOf decomp dataOff p = some p.recievedTime)
    (hok : processChunkBuffer lz4 conns schemas readers fuel buffer chunkInfo =
        .ok (msgs, schemas', readers')) :
    msgs.Pairwise msgLE := by
  rw [processChunkBuffer_eq_decodeLoop lz4 conns schemas readers fuel buffer
    chunkInfo hstage] at hok
  have hsorted : (ptrs.insertionSort ptrLE).Pairwise ptrLE :=
    List.sorted_insertionSort ptrLE ptrs
  have hwf2 : ∀ p ∈ ptrs.insertionSort ptrLE,
      headerTimeOf decomp dataOff p = none ∨
      headerTimeOf decomp dataOff p = some p.recievedTime :=
    fun p hp => hwf p ((List.perm_insertionSort ptrLE ptrs).mem_iff.mp hp)
  exact decodeLoop_sorted_go conns decomp dataOff fuel (ptrs.insertionSort ptrLE)
    schemas readers [] msgs schemas' readers' hsorted hwf2 List.Pairwise.nil
    (fun m hm => absurd hm (List.not_mem_nil m)) hok

/-- One connection `conn = 0`, topic `"t"`, type `"T"`, empty message
definition (so each message decodes to the empty object). -/
def c5Conns : List (Nat × Connection) := [(0, ⟨0, "t", "T", "", ""⟩)]

/-- A message record whose header `time` is `{sec: 2, nsec: 0}`. -/
def c5MsgA : Bytes :=
  recordBytes [(asciiBytes "conn", u32le 0), (asciiBytes "time", u32le 2 ++ u32le 0)] []

/-- A message record whose header `time` is `{sec: 1, nsec: 0}`. -/
def c5MsgB : Bytes :=
  recordBytes [(asciiBytes "conn", u32le 0), (asciiBytes "time", u32le 1 ++ u32le 0)] []

def c5MsgsRegion : Bytes := c5MsgA ++ c5MsgB

/-- The chunk record: compression `"none"`, the two message records as data. -/
def c5ChunkRec : Bytes :=
  recordBytes [(asciiBytes "compression", asciiBytes "none"),
    (asciiBytes "size", u32le c5MsgsRegion.length)] c5MsgsRegion

/-- Index entries `(recievedTime, offset)`: received `1s` at offset 0 (whose
record's header time is `2s`) and received `2s` at `c5MsgA` (header `1s`) —
received order is the reverse of header order. -/
def c5IdxData : Bytes :=
  (u32le 1 ++ u32le 0 ++ u32le 0) ++ (u32le 2 ++ u32le 0 ++ u32le c5MsgA.length)

def c5IdxRec : Bytes :=
  recordBytes [(asciiBytes "ver", u32le 1), (asciiBytes "conn", u32le 0),
    (asciiBytes "count", u32le 2)] c5IdxData

def c5Buf : Bytes := c5ChunkRec ++ c5IdxRec

def c5Info : ChunkInfo := ⟨none, 0, ⟨0, 0⟩, ⟨10, 0⟩, 1, [], 0, c5Buf.length⟩

/-- The lz4 oracle is never consulted for `"none"` compression. -/
def c5Lz4 : Bytes → Nat → Option Bytes := fun _ _ => none

/-- The `time` fields of the messages the pipeline produces on `c5Buf`. -/
def c5Times : List Time :=
  match processChunkBuffer c5Lz4 c5Conns [] initMR 100 c5Buf c5Info with
  | .ok (msgs, _, _) => msgs.map (fun m => m.time)
  | _ => []

/-- **C5** (counterexample to the claim as stated): the pointer sort key is
the index record's `recievedTime`, but the emitted `time` is read from each
message record's header; on a chunk whose index lists received times in the
reverse of the header times, the decoded list comes out `[2s, 1s]` — not
sorted ascending by `time`. -/
theorem processChunkBuffer_unsorted_counterexample :
    c5Times = [⟨2, 0⟩, ⟨1, 0⟩] ∧ ¬ List.Pairwise timeLE c5Times := by
  refine ⟨by decide, ?_⟩
  intro hp
  rw [show c5Times = [⟨2, 0⟩, ⟨1, 0⟩] from by decide] at hp
  have h21 := (List.pairwise_cons.mp hp).1 ⟨1, 0⟩ (by simp)
  revert h21
  decide

/-- Index entries agreeing with the header times: received `2s` at offset 0
(header `2s`), received `1s` at `c5MsgA` (header `1s`). -/
def c5IdxDataOk : Bytes :=
  (u32le 2 ++ u32le 0 ++ u32le 0) ++ (u32le 1 ++ u32le 0 ++ u32le c5MsgA.length)

def c5IdxRecOk : Bytes :=
  recordBytes [(asciiBytes "ver", u32le 1), (asciiBytes "conn", u32le 0),
    (asciiBytes "count", u32le 2)] c5IdxDataOk

def c5BufOk : Bytes := c5ChunkRec ++ c5IdxRecOk

def c5InfoOk : ChunkInfo := ⟨none, 0, ⟨0, 0⟩, ⟨10, 0⟩, 1, [], 0, c5BufOk.length⟩

def c5StageOk : Bytes × Int × List IndexDataMsg :=
  (chunkDecompAndPointers c5Lz4 c5BufOk c5InfoOk).getD ([], 0, [])

def c5MsgsOk : List RosbagMessage :=
  match processChunkBuffer c5Lz4 c5Conns [] initMR 100 c5BufOk c5InfoOk with
  | .ok (msgs, _, _) => msgs
  | _ => []

def c5SchemasOk : List (String × MsgSchema) :=
  match processChunkBuffer c5Lz4 c5Conns [] initMR 100 c5BufOk c5InfoOk with
  | .ok (_, s, _) => s
  | _ => []

def c5ReadersOk : MRState :=
  match processChunkBuffer c5Lz4 c5Conns [] initMR 100 c5BufOk c5InfoOk with
  | .ok (_, _, r) => r
  | _ => initMR

/-- Witness for C5 on a well-formed two-message chunk whose index entries are
listed out of order: the pipeline's sort puts the decoded messages in
ascending `time` order `[1s, 2s]`. -/
theorem processChunkBuffer_sorted_witness :
    c5MsgsOk.Pairwise msgLE ∧ (c5MsgsOk.map fun m => m.time) = [⟨1, 0⟩, ⟨2, 0⟩] :=
  ⟨processChunkBuffer_sorted c5Lz4 c5Conns [] initMR 100 c5BufOk c5InfoOk
      c5StageOk.1 c5StageOk.2.1 c5StageOk.2.2 c5MsgsOk c5SchemasOk c5ReadersOk
      rfl (by decide) rfl,
    by decide⟩

end RosbagRx
